import Mathlib

/-!
Verification development for a single-file Streamlit review tool
(`streamlit_appy.py`).  The application loads entity/section records,
renders a word-level diff of an original section against an edited
section (via `difflib.SequenceMatcher`), collects a three-question
review (issue categories, accept/revise/reject decision, placement
judgment), and uploads the finished review record to a cloud bucket.

This file gives a shallow embedding of the program's pure core:

* Python `str.split()` / `' '.join` tokenisation,
* the word-level diff highlighter `get_text_diff_v2_highlight`,
  including a faithful model of the sequence-matching opcodes
  (`difflib` itself is outside the repository; the matcher is modelled
  from the specification's description: junk-free greedy
  longest-matching-block alignment with earliest-longest tie-break),
* the Q1/Q2/Q3 form-state computations and review-record assembly,
* the navigation (`next_idx` / go-to-next-entry) and the session-key
  clearing performed on navigation,
* the uploaded-file entry loader with its uid assignment,
* the submission step with a fallible persistence sink.

Theorems at the end settle the specification claims against these
definitions.
-/

/-! ## Python string primitives -/

/-- Whitespace characters recognised by Python's `str.split()` /
`str.strip()` (ASCII subset: space, tab, newline, carriage return,
vertical tab, form feed). -/
def isSpc (c : Char) : Bool :=
  c = ' ' || c = '\t' || c = '\n' || c = '\r' || c = Char.ofNat 11 || c = Char.ofNat 12

/-- Helper for `pySplit`: splits a character list on whitespace runs,
accumulating the current word in reversed form in `acc`. -/
def splitAux : List Char → List Char → List (List Char)
  | [], acc => if acc.isEmpty then [] else [acc.reverse]
  | c :: cs, acc =>
    if isSpc c then
      (if acc.isEmpty then splitAux cs [] else acc.reverse :: splitAux cs [])
    else splitAux cs (c :: acc)

/-- Python `s.split()` (no separator argument): split on runs of
whitespace, discarding empty tokens. -/
def pySplit (s : String) : List String :=
  (splitAux s.data []).map (fun l => ⟨l⟩)

/-- Python `' '.join(ws)`. -/
def joinSp : List String → String
  | [] => ""
  | [w] => w
  | w :: ws => w ++ " " ++ joinSp ws

/-- Python `s.strip()`: remove leading and trailing whitespace. -/
def pyStrip (s : String) : String :=
  ⟨((s.data.dropWhile isSpc).reverse.dropWhile isSpc).reverse⟩

/-- Boolean test: is `pat` a leading segment of `l`? (`l.startswith(pat)`). -/
def listIsPre : List Char → List Char → Bool
  | [], _ => true
  | _ :: _, [] => false
  | x :: xs, y :: ys => x = y && listIsPre xs ys

/-- Python `s.startswith(pre)`. -/
def pyStartsWith (s pre : String) : Bool :=
  listIsPre pre.data s.data

/-- Boolean substring test: does `pat` occur contiguously in `l`? -/
def hasSubL (l pat : List Char) : Bool :=
  (List.range (l.length + 1)).any (fun k => listIsPre pat (l.drop k))

/-! ## Q1: issue-category checkboxes (`selected_q1_options`) -/

/-- The Q1 issue-category options, in source order: `(subkey, label)`. -/
def q1_options : List (String × String) :=
  [("style", "Stylistic/clarity: Phrasing redundant or tone is too informal"),
   ("minor_fix", "Minor factual fix: Small date/number correction needed"),
   ("formatting", "Wikipedia Formatting: Text in the human edit is not formatted properly"),
   ("citation", "Missing citation(s): One or more facts in the edit lack a reference"),
   ("subjective", "Subjective: Opinion or superlative without attribution (“most unexpected”)"),
   ("duplicate", "Duplicate: Overlaps substantially with another accepted fact."),
   ("insignificant", "Insignificant: Majority of the edit is not worthy of being included in Wikipedia"),
   ("irrelevant", "Irrelevant: The facts presented in the edit are not relevant for the entity"),
   ("policy", "Policy violation: Conflict with WP:OR, WP:NPOV, etc."),
   ("other", "Other:")]

/-- The Q1 loop: for every checked checkbox the option's label is
appended; afterwards, if the "other" checkbox is checked and the free
text is non-empty after stripping, an extra entry carrying the text is
appended.  `checked` gives the checkbox state per subkey, `other_text`
the free-text field. -/
def selected_q1_options (checked : String → Bool) (other_text : String) : List String :=
  ((q1_options.filter (fun p => checked p.1)).map (fun p => p.2)) ++
    (if checked "other" ∧ pyStrip other_text ≠ "" then
      ["Other (Please specify reason below): " ++ pyStrip other_text]
    else [])

/-- `st.session_state['q1'] = selected_q1_options if selected_q1_options else None`. -/
def q1_state (checked : String → Bool) (other_text : String) : Option (List String) :=
  if selected_q1_options checked other_text = [] then none
  else some (selected_q1_options checked other_text)

/-- The Q2 block is rendered exactly when `st.session_state['q1']` is
truthy (a non-`None`, hence non-empty, list). -/
def q2_rendered (checked : String → Bool) (other_text : String) : Bool :=
  (q1_state checked other_text).isSome

/-! ## Radios, Q3 and review-record assembly -/

/-- Q2 radio options. -/
def q2_options : List String := ["Accept", "Accept w/ Revision", "Reject"]

/-- Q3 radio options (note: the second option is the literal label
`"If No, which section:"`, not `"No"`). -/
def q3_options : List String := ["Yes", "If No, which section:"]

/-- A Streamlit radio: `index` is the default selection (Python
`index=None` renders with no selection), `userChoice` the selection
made by the user, if any.  The stored widget value is the selected
option string, or `none` when nothing is selected. -/
def st_radio (options : List String) (index : Option Nat) (userChoice : Option Nat) :
    Option String :=
  match userChoice with
  | some c => options.get? c
  | none => index.bind options.get?

/-- Python truthiness of the session's q1 value (`None` or a list). -/
def pyTruthyListOpt : Option (List String) → Bool
  | none => false
  | some l => !(l == [])

/-- Python truthiness of the session's q2 value (`None` or a string). -/
def pyTruthyStrOpt : Option String → Bool
  | none => false
  | some s => !(s == "")

/-- `if st.session_state['q1'] and st.session_state['q2']:` — the Q3
block (and the submit button within it) is rendered exactly when both
are truthy. -/
def q3_block_rendered (q1v : Option (List String)) (q2v : Option String) : Bool :=
  pyTruthyListOpt q1v && pyTruthyStrOpt q2v

/-- The review record assembled on submission (`review = {...}`). -/
structure ReviewRecord where
  q1 : List String
  q2 : String
  q3 : String
  q3_section : Option String
deriving DecidableEq, Repr

/-- The value of the Q3 radio: rendered with default index 0, so it
always carries a selection (`"Yes"` when untouched). -/
def q3_value (userChoice : Option (Fin 2)) : String :=
  (st_radio q3_options (some 0) (userChoice.map Fin.val)).getD ""

/-- Review assembly at submission time: q3 is the Q3 radio value; the
`q3_section` text input exists in session state only while the radio
shows `"If No, which section:"` (Streamlit drops the state of widgets
that are not re-rendered), so `st.session_state.get('q3_section')`
yields `None` otherwise. -/
def submit_assemble (q1v : List String) (q2v : String) (userChoice : Option (Fin 2))
    (sectionText : String) : ReviewRecord :=
  { q1 := q1v
    q2 := q2v
    q3 := q3_value userChoice
    q3_section :=
      if q3_value userChoice = "If No, which section:" then some sectionText else none }

/-! ## Navigation (`next_idx` and the Go-to-Next-Entry button) -/

/-- Python `list.index(x)` (first occurrence; callers guarantee
membership, as the app looks up the current uid in its own uid list). -/
def pyIndex : List String → String → Nat
  | [], _ => 0
  | y :: ys, x => if y = x then 0 else pyIndex ys x + 1

/-- `next_idx = (uids.index(selection) + 1) % len(uids)`. -/
def next_idx (uids : List String) (selection : String) : Nat :=
  (pyIndex uids selection + 1) % uids.length

/-- `next_uid = uids[next_idx]` — the uid selected by "Go to Next Entry". -/
def advanceToNext (uids : List String) (selection : String) : String :=
  uids.getD (next_idx uids selection) ""

/-- The key test of the clearing loop inside the "Go to Next Entry"
handler: `k.startswith(('q2_', 'q3', 'review_submitted')) or k == 'q1'`. -/
def go_next_clears (k : String) : Bool :=
  (pyStartsWith k "q2_" || pyStartsWith k "q3" || pyStartsWith k "review_submitted") ||
    k == "q1"

/-- The key test of the clearing loop run when the sidebar selection
changes: `k.startswith(('q', 'claims_', 'review_submitted'))`. -/
def select_entry_clears (k : String) : Bool :=
  pyStartsWith k "q" || pyStartsWith k "claims_" || pyStartsWith k "review_submitted"

/-- The session keys surviving the Go-to-Next-Entry clearing loop. -/
def go_next_remaining (keys : List String) : List String :=
  keys.filter (fun k => !go_next_clears k)

/-! ## Dataset loading (`load_entries_from_file`) -/

/-- An entry as a JSON object: an insertion-ordered field map. -/
abbrev Entry : Type := List (String × String)

/-- Python `dict.__contains__` for an entry. -/
def hasKey (e : Entry) (k : String) : Bool :=
  e.any (fun p => p.1 == k)

/-- Python `entry.setdefault(k, v)`: insert `k ↦ v` only when `k` is
absent (new keys go to the end in insertion order). -/
def setdefault (e : Entry) (k v : String) : Entry :=
  if hasKey e k then e else e ++ [(k, v)]

/-- The enumeration loop of `load_entries_from_file`:
`entry.setdefault('uid', str(uuid.uuid4()))` for each entry in order.
`uuidGen i` models the `uuid.uuid4()` draw made at position `i` (the
call is evaluated for every entry, so draws are indexed by position). -/
def loadAux (uuidGen : Nat → String) (i : Nat) : List Entry → List Entry
  | [] => []
  | e :: es => setdefault e "uid" (uuidGen i) :: loadAux uuidGen (i + 1) es

/-- `load_entries_from_file`: assign a uid to every entry lacking one,
drawing fresh random uuids.  `raw` is the parsed JSON, already
normalised to a list of entries. -/
def load_entries_from_file (raw : List Entry) (uuidGen : Nat → String) : List Entry :=
  loadAux uuidGen 0 raw

/-! ## Submission with a fallible persistence sink -/

/-- The per-entry transient session fields live in the submit path. -/
structure SessionForm where
  q1 : Option (List String)
  q2 : Option String
  q3 : Option String
  q3_section : Option String
  review_submitted : Bool
deriving DecidableEq, Repr

/-- Outcome of one click of "Submit Review". -/
structure SubmitOutcome where
  state : SessionForm
  entry_review : Option ReviewRecord
  uploaded : Bool
  errorSurfaced : Bool
deriving DecidableEq, Repr

/-- One submission attempt: the review dict is assembled and attached
to the entry, then the blob upload runs.  On success the
`review_submitted` flag is set; when the upload raises (`sinkOk =
false`), the exception propagates before the flag assignment, the
error is shown by the framework, and no retry happens — the session's
answer fields are never written by this path. -/
def submit_review (s : SessionForm) (sinkOk : Bool) : SubmitOutcome :=
  let rv : ReviewRecord :=
    { q1 := s.q1.getD [], q2 := s.q2.getD "", q3 := s.q3.getD "",
      q3_section := s.q3_section }
  if sinkOk then
    { state := { s with review_submitted := true }
      entry_review := some rv
      uploaded := true
      errorSurfaced := false }
  else
    { state := s
      entry_review := some rv
      uploaded := false
      errorSurfaced := true }

/-! ## Diff engine: sequence matcher

`difflib.SequenceMatcher` is Python standard library, not part of this
repository.  Modelled from the spec: a junk-free greedy
longest-matching-block alignment whose tie-break is the
earliest-longest match (maximal length, then smallest start in the
first sequence, then smallest start in the second), recursively
applied left and right of each match; adjacent blocks are merged and a
terminal zero-size block is appended before opcode generation. -/

/-- Length of the longest common leading run of two word lists. -/
def matchLen : List String → List String → Nat
  | x :: xs, y :: ys => if x = y then matchLen xs ys + 1 else 0
  | _, _ => 0

/-- Length of the longest common run starting at positions `i`, `j`. -/
def matchLenAt (a b : List String) (i j : Nat) : Nat :=
  matchLen (a.drop i) (b.drop j)

/-- Maximal length of a common run of `a` and `b`. -/
def maxLen (a b : List String) : Nat :=
  ((List.range (a.length + 1)).map (fun i =>
    ((List.range (b.length + 1)).map (fun j => matchLenAt a b i j)).foldr max 0)).foldr max 0

/-- The longest matching block: maximal length `k`, earliest start `i`
in `a`, then earliest start `j` in `b`; `none` when no words match. -/
def bestMatch (a b : List String) : Option (Nat × Nat × Nat) :=
  let K := maxLen a b
  if K = 0 then none
  else
    (List.range a.length).findSome? (fun i =>
      ((List.range b.length).find? (fun j => matchLenAt a b i j == K)).map
        (fun j => (i, j, K)))

/-- Matching blocks (fuelled recursion; `mblocks` supplies enough
fuel): the longest matching block splits the problem into the part
before and the part after it. -/
def mblocksF : Nat → List String → List String → List (Nat × Nat × Nat)
  | 0, _, _ => []
  | fuel + 1, a, b =>
    match bestMatch a b with
    | none => []
    | some (i, j, k) =>
      mblocksF fuel (a.take i) (b.take j) ++
        (i, j, k) ::
          (mblocksF fuel (a.drop (i + k)) (b.drop (j + k))).map
            (fun t => (t.1 + (i + k), t.2.1 + (j + k), t.2.2))

/-- All matching blocks of `a` and `b`, in order. -/
def mblocks (a b : List String) : List (Nat × Nat × Nat) :=
  mblocksF (a.length + b.length) a b

/-- Merge loop: fold adjacent matching blocks together (accumulator
`x`, as in `get_matching_blocks`). -/
def mergeA (x : Nat × Nat × Nat) : List (Nat × Nat × Nat) → List (Nat × Nat × Nat)
  | [] => [x]
  | y :: rest =>
    if x.1 + x.2.2 == y.1 && x.2.1 + x.2.2 == y.2.1 then
      mergeA (x.1, x.2.1, x.2.2 + y.2.2) rest
    else x :: mergeA y rest

/-- Merge adjacent matching blocks. -/
def mergeAdj : List (Nat × Nat × Nat) → List (Nat × Nat × Nat)
  | [] => []
  | x :: rest => mergeA x rest

/-- Opcode tags. -/
inductive OpTag where
  | equal
  | delete
  | insert
  | replace
deriving DecidableEq, Repr

/-- One opcode `(tag, i1, i2, j1, j2)`. -/
structure Op where
  tag : OpTag
  i1 : Nat
  i2 : Nat
  j1 : Nat
  j2 : Nat
deriving DecidableEq, Repr

/-- The opcode loop of `get_opcodes`: walk the (merged, terminated)
block list keeping the previous end `(i, j)`; a gap before a block
becomes a replace / delete / insert opcode, the block itself an equal
opcode when non-empty. -/
def opsFromBlocks : Nat → Nat → List (Nat × Nat × Nat) → List Op
  | _, _, [] => []
  | i, j, (ai, bj, sz) :: rest =>
    (if i < ai ∧ j < bj then [⟨OpTag.replace, i, ai, j, bj⟩]
     else if i < ai then [⟨OpTag.delete, i, ai, j, bj⟩]
     else if j < bj then [⟨OpTag.insert, i, ai, j, bj⟩]
     else []) ++
      (if sz ≠ 0 then [⟨OpTag.equal, ai, ai + sz, bj, bj + sz⟩] else []) ++
      opsFromBlocks (ai + sz) (bj + sz) rest

/-- `sm.get_opcodes()` for word lists `a` and `b`. -/
def get_opcodes (a b : List String) : List Op :=
  opsFromBlocks 0 0 (mergeAdj (mblocks a b) ++ [(a.length, b.length, 0)])

/-- `a_words[i1:i2]`. -/
def sliceL (ws : List String) (i1 i2 : Nat) : List String :=
  (ws.drop i1).take (i2 - i1)

/-- The highlight loop: build the `a_hl` and `b_hl` piece lists from
the opcodes. `equal` copies the words into both sides; `delete`
(`insert`) wraps the removed (added) range in `<del>` (`<ins>`)
markers on its side; `replace` does both. -/
def hl_lists (aw bw : List String) : List Op → List String × List String
  | [] => ([], [])
  | op :: rest =>
    let r := hl_lists aw bw rest
    match op.tag with
    | OpTag.equal =>
      (sliceL aw op.i1 op.i2 ++ r.1, sliceL bw op.j1 op.j2 ++ r.2)
    | OpTag.delete =>
      (("<del>" ++ joinSp (sliceL aw op.i1 op.i2) ++ "</del>") :: r.1, r.2)
    | OpTag.insert =>
      (r.1, ("<ins>" ++ joinSp (sliceL bw op.j1 op.j2) ++ "</ins>") :: r.2)
    | OpTag.replace =>
      (("<del>" ++ joinSp (sliceL aw op.i1 op.i2) ++ "</del>") :: r.1,
       ("<ins>" ++ joinSp (sliceL bw op.j1 op.j2) ++ "</ins>") :: r.2)

/-- `get_text_diff_v2_highlight(a, b)`: tokenise, compute opcodes,
mark up each side, and join with single spaces. -/
def get_text_diff_v2_highlight (a b : String) : String × String :=
  let a_words := pySplit a
  let b_words := pySplit b
  let hl := hl_lists a_words b_words (get_opcodes a_words b_words)
  (joinSp hl.1, joinSp hl.2)

/-! ## Removal of marker tags (for the content-preservation claim) -/

/-- Scan removing every (leftmost, non-overlapping) occurrence of
`pat`; `skip` counts characters of a matched occurrence still to be
dropped. -/
def raux (pat : List Char) : List Char → Nat → List Char
  | [], _ => []
  | _ :: cs, Nat.succ k => raux pat cs k
  | c :: cs, 0 =>
    if pat ≠ [] ∧ listIsPre pat (c :: cs) = true then
      raux pat cs (pat.length - 1)
    else c :: raux pat cs 0

/-- Delete all occurrences of `pat` from `s` (Python `s.replace(pat, '')`). -/
def removeAll (pat s : String) : String :=
  ⟨raux pat.data s.data 0⟩

/-- The four marker tags as character lists. -/
def delOpenTag : List Char := "<del>".data

def delCloseTag : List Char := "</del>".data

def insOpenTag : List Char := "<ins>".data

def insCloseTag : List Char := "</ins>".data

/-- Delete all `<del>` and `</del>` markers. -/
def stripDel (s : String) : String :=
  removeAll "</del>" (removeAll "<del>" s)

/-- Delete all `<ins>` and `</ins>` markers. -/
def stripIns (s : String) : String :=
  removeAll "</ins>" (removeAll "<ins>" s)

/-- `s` contains none of the four marker tags as a substring. -/
def MarkerClean (s : String) : Prop :=
  hasSubL s.data delOpenTag = false ∧ hasSubL s.data delCloseTag = false ∧
    hasSubL s.data insOpenTag = false ∧ hasSubL s.data insCloseTag = false

instance (s : String) : Decidable (MarkerClean s) := by
  unfold MarkerClean
  infer_instance

/-! ## Prefix and occurrence lemmas -/

/-- `pat` is a leading segment of `l`. -/
def IsPre (pat l : List Char) : Prop := ∃ r, l = pat ++ r

/-- `pat` occurs nowhere in `l`. -/
def Clean (pat l : List Char) : Prop := ∀ k, ¬ IsPre pat (l.drop k)

theorem listIsPre_iff (pat l : List Char) : listIsPre pat l = true ↔ IsPre pat l := by
  induction pat generalizing l with
  | nil =>
    simp [listIsPre, IsPre]
  | cons x xs ih =>
    cases l with
    | nil =>
      simp [listIsPre, IsPre]
    | cons y ys =>
      simp only [listIsPre, Bool.and_eq_true, decide_eq_true_eq, ih, IsPre]
      constructor
      · rintro ⟨hxy, r, hr⟩
        exact ⟨r, by simp [hxy, hr]⟩
      · rintro ⟨r, hr⟩
        simp only [List.cons_append, List.cons.injEq] at hr
        exact ⟨hr.1.symm, r, hr.2⟩

theorem isPre_nil_right {pat : List Char} (h : IsPre pat []) : pat = [] := by
  obtain ⟨r, hr⟩ := h
  exact (List.append_eq_nil.mp hr.symm).1

theorem hasSubL_false_iff {pat l : List Char} (hne : pat ≠ []) :
    hasSubL l pat = false ↔ Clean pat l := by
  unfold hasSubL Clean
  rw [← Bool.not_eq_true, List.any_eq_true]
  constructor
  · intro h k hk
    rcases Nat.lt_or_ge k (l.length + 1) with hlt | hge
    · exact h ⟨k, List.mem_range.mpr hlt, (listIsPre_iff _ _).mpr hk⟩
    · have hdrop : l.drop k = [] := by
        apply List.drop_eq_nil_of_le
        omega
      rw [hdrop] at hk
      exact hne (isPre_nil_right hk)
  · rintro h ⟨k, _, hm⟩
    exact h k ((listIsPre_iff _ _).mp hm)

theorem clean_of_hasSubL {pat l : List Char} (hne : pat ≠ [])
    (h : hasSubL l pat = false) : Clean pat l :=
  (hasSubL_false_iff hne).mp h

/-- Decompose an occurrence of `pat` starting inside `x` in `x ++ y`:
either `pat` lies entirely inside `x`, or it crosses into `y` and the
first character of `y` appears in `pat` past its head. -/
theorem isPre_cross {pat x y : List Char} {k : Nat} (hk : k < x.length)
    (h : IsPre pat (x.drop k ++ y)) :
    (∃ m, IsPre pat (x.drop m)) ∨ ∃ c, y.head? = some c ∧ c ∈ pat.drop 1 := by
  obtain ⟨r, hr⟩ := h
  have hd : 1 ≤ (x.drop k).length := by
    rw [List.length_drop]
    omega
  have hpat : pat = (x.drop k).take pat.length ++ y.take (pat.length - (x.drop k).length) := by
    have h1 : pat = ((x.drop k) ++ y).take pat.length := by
      rw [hr, List.take_left]
    conv_lhs => rw [h1]
    rw [List.take_append_eq_append_take]
  rcases le_or_lt pat.length (x.drop k).length with hle | hlt
  · left
    refine ⟨k, (x.drop k).drop pat.length, ?_⟩
    have hz : pat.length - (x.drop k).length = 0 := by omega
    have hpp : pat = (x.drop k).take pat.length := by
      conv_lhs => rw [hpat]
      rw [hz, List.take_zero, List.append_nil]
    conv_lhs => rw [← List.take_append_drop pat.length (x.drop k)]
    rw [← hpp]
  · right
    have hy : y ≠ [] := by
      intro hy0
      rw [hy0] at hpat
      simp only [List.take_nil, List.append_nil] at hpat
      have := congrArg List.length hpat
      rw [List.length_take] at this
      omega
    cases y with
    | nil => exact absurd rfl hy
    | cons c y' =>
      refine ⟨c, rfl, ?_⟩
      have hm : pat.length - (x.drop k).length ≥ 1 := by omega
      have htk : (c :: y').take (pat.length - (x.drop k).length) =
          c :: y'.take (pat.length - (x.drop k).length - 1) := by
        cases hh : pat.length - (x.drop k).length with
        | zero => omega
        | succ n => simp [List.take_succ_cons]
      rw [htk] at hpat
      have hdropped : pat.drop (x.drop k).length =
          c :: y'.take (pat.length - (x.drop k).length - 1) := by
        have hlen : ((x.drop k).take pat.length).length = (x.drop k).length := by
          rw [List.length_take]
          omega
        calc pat.drop (x.drop k).length
            = (((x.drop k).take pat.length) ++
                (c :: y'.take (pat.length - (x.drop k).length - 1))).drop
                  (x.drop k).length := by rw [← hpat]
          _ = c :: y'.take (pat.length - (x.drop k).length - 1) := by
              rw [List.drop_append_eq_append_drop, hlen]
              simp
      have hcmem : c ∈ pat.drop (x.drop k).length := by
        rw [hdropped]
        exact List.mem_cons_self _ _
      have hsub : pat.drop (x.drop k).length ⊆ pat.drop 1 := by
        have : pat.drop (x.drop k).length = (pat.drop 1).drop ((x.drop k).length - 1) := by
          rw [List.drop_drop]
          congr 1
          omega
        rw [this]
        exact List.drop_subset _ _
      exact hsub hcmem

/-- No occurrence of `pat` starts inside `x` when `x` is clean and the
head of `y` does not occur past `pat`'s head. -/
theorem no_cross_of_clean {pat x y : List Char} (hx : Clean pat x)
    (hy : ∀ c, y.head? = some c → c ∉ pat.drop 1) :
    ∀ k, k < x.length → ¬ IsPre pat (x.drop k ++ y) := by
  intro k hk h
  rcases isPre_cross hk h with ⟨m, hm⟩ | ⟨c, hc, hmem⟩
  · exact hx m hm
  · exact hy c hc hmem

/-- An occurrence of `pat` in `x ++ y` either starts inside `x` or
lies inside `y`. -/
theorem clean_append {pat x y : List Char} (hx : Clean pat x)
    (hy : Clean pat y) (hcross : ∀ c, y.head? = some c → c ∉ pat.drop 1) :
    Clean pat (x ++ y) := by
  intro k h
  rw [List.drop_append_eq_append_drop] at h
  rcases Nat.lt_or_ge k x.length with hlt | hge
  · have : k - x.length = 0 := by omega
    rw [this, List.drop_zero] at h
    exact no_cross_of_clean hx hcross k hlt h
  · have : x.drop k = [] := List.drop_eq_nil_of_le hge
    rw [this, List.nil_append] at h
    exact hy _ h

theorem not_isPre_cons {pat : List Char} {c : Char} {z : List Char}
    (hne : pat ≠ []) (hc : c ∉ pat) : ¬ IsPre pat (c :: z) := by
  rintro ⟨r, hr⟩
  cases pat with
  | nil => exact hne rfl
  | cons p0 pr =>
    simp only [List.cons_append, List.cons.injEq] at hr
    exact hc (hr.1 ▸ List.mem_cons_self _ _)

theorem clean_cons {pat : List Char} {c : Char} {z : List Char}
    (h0 : ¬ IsPre pat (c :: z)) (hz : Clean pat z) : Clean pat (c :: z) := by
  intro k
  cases k with
  | zero => exact h0
  | succ k => exact hz k

/-! ## Lemmas about the tag-removal scan `raux` -/

theorem raux_nil (pat : List Char) (s : Nat) : raux pat [] s = [] := by
  cases s <;> rfl

theorem raux_skip (pat : List Char) (x y : List Char) :
    raux pat (x ++ y) x.length = raux pat y 0 := by
  induction x with
  | nil => rfl
  | cons c x' ih =>
    simp only [List.cons_append, List.length_cons]
    rw [show raux pat (c :: (x' ++ y)) (x'.length + 1) = raux pat (x' ++ y) x'.length from rfl]
    exact ih

theorem listIsPre_append_self (l r : List Char) : listIsPre l (l ++ r) = true := by
  induction l with
  | nil => rfl
  | cons c cs ih => simp [listIsPre, ih]

theorem raux_removes {pat : List Char} (hne : pat ≠ []) (r : List Char) :
    raux pat (pat ++ r) 0 = raux pat r 0 := by
  cases pat with
  | nil => exact absurd rfl hne
  | cons c p' =>
    rw [List.cons_append,
      show raux (c :: p') (c :: (p' ++ r)) 0 =
        if (c :: p') ≠ [] ∧ listIsPre (c :: p') (c :: (p' ++ r)) = true then
          raux (c :: p') (p' ++ r) ((c :: p').length - 1)
        else c :: raux (c :: p') (p' ++ r) 0 from rfl]
    rw [if_pos ⟨hne, listIsPre_append_self (c :: p') r⟩]
    simp only [List.length_cons, Nat.add_sub_cancel]
    exact raux_skip (c :: p') p' r

theorem raux_skip_clean {pat : List Char} (x y : List Char)
    (h : ∀ k, k < x.length → ¬ IsPre pat (x.drop k ++ y)) :
    raux pat (x ++ y) 0 = x ++ raux pat y 0 := by
  induction x with
  | nil => rfl
  | cons c x' ih =>
    rw [List.cons_append,
      show raux pat (c :: (x' ++ y)) 0 =
        if pat ≠ [] ∧ listIsPre pat (c :: (x' ++ y)) = true then
          raux pat (x' ++ y) (pat.length - 1)
        else c :: raux pat (x' ++ y) 0 from rfl]
    rw [if_neg]
    · rw [ih (fun k hk => h (k + 1) (by simpa using Nat.succ_lt_succ hk))]
      rfl
    · rintro ⟨hne, hp⟩
      exact h 0 (by simp) (by simpa using (listIsPre_iff _ _).mp hp)

/-- Skip a clean region during the removal scan. -/
theorem raux_skip_clean_cross {pat : List Char} (x y : List Char) (hx : Clean pat x)
    (hy : ∀ c, y.head? = some c → c ∉ pat.drop 1) :
    raux pat (x ++ y) 0 = x ++ raux pat y 0 :=
  raux_skip_clean x y (no_cross_of_clean hx hy)

theorem raux_space {pat : List Char} {c0 : Char} (hne : pat ≠ []) (hc : c0 ∉ pat)
    (z : List Char) : raux pat (c0 :: z) 0 = c0 :: raux pat z 0 := by
  rw [show raux pat (c0 :: z) 0 =
      if pat ≠ [] ∧ listIsPre pat (c0 :: z) = true then raux pat z (pat.length - 1)
      else c0 :: raux pat z 0 from rfl]
  rw [if_neg]
  rintro ⟨-, hp⟩
  exact not_isPre_cons hne hc ((listIsPre_iff _ _).mp hp)

/-! ## Space-separated joins at character level -/

/-- `' ' :: p₁ ++ ' ' :: p₂ ++ ⋯` — the join of pieces, each preceded
by one space. -/
def preSp : List (List Char) → List Char
  | [] => []
  | p :: ps => ' ' :: (p ++ preSp ps)

/-- `p₀ ++ ' ' :: p₁ ++ ⋯` — pieces joined by single spaces. -/
def sepJoin : List (List Char) → List Char
  | [] => []
  | p :: ps => p ++ preSp ps

theorem preSp_cons (p : List Char) (ps : List (List Char)) :
    preSp (p :: ps) = ' ' :: sepJoin (p :: ps) := rfl

theorem preSp_append (xs ys : List (List Char)) :
    preSp (xs ++ ys) = preSp xs ++ preSp ys := by
  induction xs with
  | nil => rfl
  | cons p ps ih => simp [preSp, ih]

theorem sepJoin_cons_append (x : List Char) (xs ys : List (List Char)) :
    sepJoin ((x :: xs) ++ ys) = sepJoin (x :: xs) ++ preSp ys := by
  simp [sepJoin, preSp_append]

theorem string_data_append (s t : String) : (s ++ t).data = s.data ++ t.data := rfl

theorem joinSp_data (ws : List String) :
    (joinSp ws).data = sepJoin (ws.map String.data) := by
  induction ws with
  | nil => rfl
  | cons w ws ih =>
    cases ws with
    | nil => simp [joinSp, sepJoin, preSp]
    | cons u us =>
      rw [show joinSp (w :: u :: us) = w ++ " " ++ joinSp (u :: us) from rfl]
      rw [string_data_append, string_data_append, ih]
      simp [sepJoin, preSp]

/-- A join of clean pieces is clean, for a non-empty space-free pattern. -/
theorem clean_sepJoin {pat : List Char} (hne : pat ≠ []) (hsp : ' ' ∉ pat)
    (ps : List (List Char)) (h : ∀ p ∈ ps, Clean pat p) :
    Clean pat (sepJoin ps) ∧ Clean pat (preSp ps) := by
  induction ps with
  | nil =>
    have hcl : Clean pat [] := by
      intro k hk
      rw [List.drop_nil] at hk
      exact hne (isPre_nil_right hk)
    exact ⟨hcl, hcl⟩
  | cons p ps ih =>
    obtain ⟨ihs, ihp⟩ := ih (fun q hq => h q (List.mem_cons_of_mem _ hq))
    have hp : Clean pat p := h p (List.mem_cons_self _ _)
    have hjoin : Clean pat (sepJoin (p :: ps)) := by
      rw [show sepJoin (p :: ps) = p ++ preSp ps from rfl]
      apply clean_append hp ihp
      intro c hc hmem
      cases ps with
      | nil => simp [preSp] at hc
      | cons q qs =>
        simp only [preSp, List.head?_cons, Option.some.injEq] at hc
        exact hsp (hc ▸ List.drop_subset 1 pat hmem)
    refine ⟨hjoin, ?_⟩
    rw [preSp_cons]
    apply clean_cons _ hjoin
    exact not_isPre_cons hne hsp

/-! ## Matcher lemmas -/

theorem foldrMax_le {l : List Nat} {m : Nat} (h : ∀ x ∈ l, x ≤ m) : l.foldr max 0 ≤ m := by
  induction l with
  | nil => exact Nat.zero_le m
  | cons x xs ih =>
    simp only [List.foldr_cons]
    exact max_le (h x (List.mem_cons_self _ _)) (ih (fun y hy => h y (List.mem_cons_of_mem _ hy)))

theorem le_foldrMax {l : List Nat} {x : Nat} (hx : x ∈ l) : x ≤ l.foldr max 0 := by
  induction l with
  | nil => cases hx
  | cons y ys ih =>
    simp only [List.foldr_cons]
    rcases List.mem_cons.mp hx with h | h
    · exact h ▸ le_max_left _ _
    · exact le_trans (ih h) (le_max_right _ _)

theorem foldrMax_mem {l : List Nat} : l.foldr max 0 = 0 ∨ l.foldr max 0 ∈ l := by
  induction l with
  | nil => exact Or.inl rfl
  | cons x xs ih =>
    simp only [List.foldr_cons]
    rcases le_or_lt x (xs.foldr max 0) with h | h
    · rw [max_eq_right h]
      rcases ih with h0 | hm
      · exact Or.inl h0
      · exact Or.inr (List.mem_cons_of_mem _ hm)
    · rw [max_eq_left (le_of_lt h)]
      exact Or.inr (List.mem_cons_self _ _)

theorem matchLen_le_left (xs ys : List String) : matchLen xs ys ≤ xs.length := by
  induction xs generalizing ys with
  | nil => cases ys <;> simp [matchLen]
  | cons x xs ih =>
    cases ys with
    | nil => simp [matchLen]
    | cons y ys =>
      by_cases h : x = y <;> simp [matchLen, h]
      exact ih ys

theorem matchLen_le_right (xs ys : List String) : matchLen xs ys ≤ ys.length := by
  induction xs generalizing ys with
  | nil => cases ys <;> simp [matchLen]
  | cons x xs ih =>
    cases ys with
    | nil => simp [matchLen]
    | cons y ys =>
      by_cases h : x = y <;> simp [matchLen, h]
      exact ih ys

theorem matchLen_self (xs : List String) : matchLen xs xs = xs.length := by
  induction xs with
  | nil => rfl
  | cons x xs ih => simp [matchLen, ih]

theorem matchLenAt_le_maxLen (a b : List String) {i j : Nat} (hi : i ≤ a.length)
    (hj : j ≤ b.length) : matchLenAt a b i j ≤ maxLen a b := by
  unfold maxLen
  have hmem1 : matchLenAt a b i j ∈
      (List.range (b.length + 1)).map (fun j => matchLenAt a b i j) :=
    List.mem_map.mpr ⟨j, List.mem_range.mpr (by omega), rfl⟩
  have h1 := le_foldrMax hmem1
  have hmem2 : ((List.range (b.length + 1)).map (fun j => matchLenAt a b i j)).foldr max 0 ∈
      (List.range (a.length + 1)).map (fun i =>
        ((List.range (b.length + 1)).map (fun j => matchLenAt a b i j)).foldr max 0) :=
    List.mem_map.mpr ⟨i, List.mem_range.mpr (by omega), rfl⟩
  exact le_trans h1 (le_foldrMax hmem2)

theorem maxLen_le {a b : List String} {N : Nat}
    (h : ∀ i j, matchLenAt a b i j ≤ N) : maxLen a b ≤ N := by
  unfold maxLen
  apply foldrMax_le
  intro x hx
  obtain ⟨i, -, hi⟩ := List.mem_map.mp hx
  subst hi
  apply foldrMax_le
  intro y hy
  obtain ⟨j, -, hj⟩ := List.mem_map.mp hy
  exact hj ▸ h i j

theorem maxLen_attained (a b : List String) :
    maxLen a b = 0 ∨ ∃ i j, i ≤ a.length ∧ j ≤ b.length ∧ matchLenAt a b i j = maxLen a b := by
  rcases @foldrMax_mem ((List.range (a.length + 1)).map (fun i =>
      ((List.range (b.length + 1)).map (fun j => matchLenAt a b i j)).foldr max 0)) with h0 | hm
  · exact Or.inl h0
  · obtain ⟨i, hi, hval⟩ := List.mem_map.mp hm
    rcases @foldrMax_mem ((List.range (b.length + 1)).map (fun j => matchLenAt a b i j)) with
      h0' | hm'
    · left
      show maxLen a b = 0
      unfold maxLen
      rw [← hval, h0']
    · obtain ⟨j, hj, hval'⟩ := List.mem_map.mp hm'
      right
      refine ⟨i, j, ?_, ?_, ?_⟩
      · exact Nat.lt_succ_iff.mp (List.mem_range.mp hi)
      · exact Nat.lt_succ_iff.mp (List.mem_range.mp hj)
      · show matchLenAt a b i j = maxLen a b
        unfold maxLen
        exact hval'.trans hval

theorem matchLenAt_le_sub_left (a b : List String) (i j : Nat) :
    matchLenAt a b i j ≤ a.length - i := by
  unfold matchLenAt
  calc matchLen (a.drop i) (b.drop j) ≤ (a.drop i).length := matchLen_le_left _ _
    _ = a.length - i := List.length_drop _ _

theorem matchLenAt_le_sub_right (a b : List String) (i j : Nat) :
    matchLenAt a b i j ≤ b.length - j := by
  unfold matchLenAt
  calc matchLen (a.drop i) (b.drop j) ≤ (b.drop j).length := matchLen_le_right _ _
    _ = b.length - j := List.length_drop _ _

theorem bestMatch_spec {a b : List String} {i j k : Nat}
    (h : bestMatch a b = some (i, j, k)) :
    i < a.length ∧ j < b.length ∧ matchLenAt a b i j = k ∧ k = maxLen a b ∧ 1 ≤ k ∧
      i + k ≤ a.length ∧ j + k ≤ b.length := by
  unfold bestMatch at h
  by_cases hK : maxLen a b = 0
  · simp [hK] at h
  · rw [if_neg hK] at h
    obtain ⟨i0, hi0, hf⟩ := List.exists_of_findSome?_eq_some h
    obtain ⟨j0, hj0, hmap⟩ := Option.map_eq_some'.mp hf
    have hpj := List.find?_some hj0
    have hj0mem : j0 ∈ List.range b.length := List.mem_of_find?_eq_some hj0
    have heq : (i0, j0, maxLen a b) = (i, j, k) := hmap
    injection heq with h1 hrest
    injection hrest with h2 h3
    subst h1
    subst h2
    subst h3
    have hmm : matchLenAt a b i0 j0 = maxLen a b := by simpa using hpj
    have hs1 := matchLenAt_le_sub_left a b i0 j0
    have hs2 := matchLenAt_le_sub_right a b i0 j0
    have hi' := List.mem_range.mp hi0
    have hj' := List.mem_range.mp hj0mem
    exact ⟨hi', hj', hmm, rfl, by omega, by omega, by omega⟩

theorem maxLen_self (a : List String) : maxLen a a = a.length := by
  apply le_antisymm
  · apply maxLen_le
    intro i j
    calc matchLenAt a a i j ≤ a.length - i := matchLenAt_le_sub_left a a i j
      _ ≤ a.length := Nat.sub_le _ _
  · have h := matchLenAt_le_maxLen a a (Nat.zero_le a.length) (Nat.zero_le a.length)
    rwa [show matchLenAt a a 0 0 = a.length from by
      simp [matchLenAt, matchLen_self]] at h

theorem bestMatch_self {a : List String} (ha : a ≠ []) :
    bestMatch a a = some (0, 0, a.length) := by
  have hn : 0 < a.length := List.length_pos.mpr ha
  unfold bestMatch
  rw [maxLen_self]
  rw [if_neg (by omega)]
  obtain ⟨m, hm⟩ : ∃ m, a.length = m + 1 := ⟨a.length - 1, by omega⟩
  rw [hm, List.range_succ_eq_map, List.findSome?_cons]
  have hml : matchLenAt a a 0 0 = m + 1 := by
    rw [← hm]
    simp [matchLenAt, matchLen_self]
  have hfind : List.find? (fun j => matchLenAt a a 0 j == m + 1)
      (0 :: (List.range m).map Nat.succ) = some 0 :=
    List.find?_cons_of_pos _ (by simp [hml])
  rw [hfind]
  rfl

theorem mblocksF_nil_nil (fuel : Nat) : mblocksF fuel [] [] = [] := by
  cases fuel with
  | zero => rfl
  | succ f =>
    have : bestMatch ([] : List String) [] = none := by
      unfold bestMatch
      have : maxLen ([] : List String) [] = 0 := by
        apply Nat.le_antisymm _ (Nat.zero_le _)
        apply maxLen_le
        intro i j
        exact le_trans (matchLenAt_le_sub_left _ _ _ _) (by simp)
      simp [this]
    simp [mblocksF, this]

theorem mblocks_self {a : List String} (ha : a ≠ []) :
    mblocks a a = [(0, 0, a.length)] := by
  unfold mblocks
  have hn : 0 < a.length := List.length_pos.mpr ha
  obtain ⟨m, hm⟩ : ∃ m, a.length + a.length = m + 1 := ⟨a.length + a.length - 1, by omega⟩
  rw [hm]
  rw [show mblocksF (m + 1) a a =
    (match bestMatch a a with
    | none => []
    | some (i, j, k) =>
      mblocksF m (a.take i) (a.take j) ++
        (i, j, k) ::
          (mblocksF m (a.drop (i + k)) (a.drop (j + k))).map
            (fun t => (t.1 + (i + k), t.2.1 + (j + k), t.2.2))) from rfl]
  rw [bestMatch_self ha]
  simp [List.drop_length, mblocksF_nil_nil]

/-! ## Block chain invariants and opcode tiling -/

/-- Matching blocks starting at `(i, j)` advance monotonically and stay
within `(la, lb)`. -/
def ChainLe (la lb : Nat) : Nat → Nat → List (Nat × Nat × Nat) → Prop
  | i, j, [] => i ≤ la ∧ j ≤ lb
  | i, j, (ai, bj, sz) :: rest => i ≤ ai ∧ j ≤ bj ∧ ChainLe la lb (ai + sz) (bj + sz) rest

theorem chainLe_weaken {la lb : Nat} : ∀ {bl i j i' j'}, ChainLe la lb i j bl →
    i' ≤ i → j' ≤ j → ChainLe la lb i' j' bl := by
  intro bl
  cases bl with
  | nil =>
    intro i j i' j' h hi hj
    exact ⟨le_trans hi h.1, le_trans hj h.2⟩
  | cons x rest =>
    intro i j i' j' h hi hj
    obtain ⟨x1, x2, x3⟩ := x
    exact ⟨le_trans hi h.1, le_trans hj h.2.1, h.2.2⟩

theorem chainLe_glue {la lb m n : Nat} : ∀ (bl1 : List (Nat × Nat × Nat)) {bl2 i j},
    ChainLe m n i j bl1 → ChainLe la lb m n bl2 → ChainLe la lb i j (bl1 ++ bl2) := by
  intro bl1
  induction bl1 with
  | nil =>
    intro bl2 i j h1 h2
    exact chainLe_weaken h2 h1.1 h1.2
  | cons x rest ih =>
    intro bl2 i j h1 h2
    obtain ⟨x1, x2, x3⟩ := x
    exact ⟨h1.1, h1.2.1, ih h1.2.2 h2⟩

theorem chainLe_offset {la lb : Nat} (d1 d2 : Nat) : ∀ {bl i j}, ChainLe la lb i j bl →
    ChainLe (la + d1) (lb + d2) (i + d1) (j + d2)
      (bl.map (fun t => (t.1 + d1, t.2.1 + d2, t.2.2))) := by
  intro bl
  induction bl with
  | nil =>
    intro i j h
    obtain ⟨h1, h2⟩ := h
    exact ⟨by omega, by omega⟩
  | cons x rest ih =>
    intro i j h
    obtain ⟨x1, x2, x3⟩ := x
    obtain ⟨h1, h2, h3⟩ := h
    refine ⟨?_, ?_, ?_⟩
    · show i + d1 ≤ x1 + d1
      omega
    · show j + d2 ≤ x2 + d2
      omega
    · show ChainLe (la + d1) (lb + d2) (x1 + d1 + x3) (x2 + d2 + x3)
        (rest.map (fun t => (t.1 + d1, t.2.1 + d2, t.2.2)))
      have := ih h3
      rw [show x1 + d1 + x3 = x1 + x3 + d1 by omega,
        show x2 + d2 + x3 = x2 + x3 + d2 by omega]
      exact this

theorem mblocksF_chain : ∀ (fuel : Nat) (a b : List String),
    a.length + b.length ≤ fuel → ChainLe a.length b.length 0 0 (mblocksF fuel a b) := by
  intro fuel
  induction fuel with
  | zero =>
    intro a b _
    exact ⟨Nat.zero_le _, Nat.zero_le _⟩
  | succ fuel ih =>
    intro a b hf
    rw [show mblocksF (fuel + 1) a b =
      (match bestMatch a b with
      | none => []
      | some (i, j, k) =>
        mblocksF fuel (a.take i) (b.take j) ++
          (i, j, k) ::
            (mblocksF fuel (a.drop (i + k)) (b.drop (j + k))).map
              (fun t => (t.1 + (i + k), t.2.1 + (j + k), t.2.2))) from rfl]
    cases h : bestMatch a b with
    | none => exact ⟨Nat.zero_le _, Nat.zero_le _⟩
    | some t =>
      obtain ⟨i, j, k⟩ := t
      obtain ⟨hi, hj, -, -, hk1, hik, hjk⟩ := bestMatch_spec h
      have hlt : (a.take i).length = i := by
        rw [List.length_take]
        omega
      have hlt' : (b.take j).length = j := by
        rw [List.length_take]
        omega
      have hleft : ChainLe i j 0 0 (mblocksF fuel (a.take i) (b.take j)) := by
        have := ih (a.take i) (b.take j) (by rw [hlt, hlt']; omega)
        rwa [hlt, hlt'] at this
      have hdl : (a.drop (i + k)).length = a.length - (i + k) := List.length_drop _ _
      have hdl' : (b.drop (j + k)).length = b.length - (j + k) := List.length_drop _ _
      have hright0 := ih (a.drop (i + k)) (b.drop (j + k)) (by rw [hdl, hdl']; omega)
      rw [hdl, hdl'] at hright0
      have hright := chainLe_offset (i + k) (j + k) hright0
      rw [show a.length - (i + k) + (i + k) = a.length by omega,
        show b.length - (j + k) + (j + k) = b.length by omega,
        Nat.zero_add, Nat.zero_add] at hright
      exact chainLe_glue _ hleft ⟨le_refl i, le_refl j, hright⟩

theorem chainLe_mergeA {la lb : Nat} : ∀ (bl : List (Nat × Nat × Nat)) (x : Nat × Nat × Nat)
    {i j : Nat}, i ≤ x.1 → j ≤ x.2.1 →
    ChainLe la lb (x.1 + x.2.2) (x.2.1 + x.2.2) bl → ChainLe la lb i j (mergeA x bl) := by
  intro bl
  induction bl with
  | nil =>
    intro x i j hi hj h
    exact ⟨hi, hj, h⟩
  | cons y rest ih =>
    intro x i j hi hj h
    obtain ⟨y1, y2, y3⟩ := y
    rw [show mergeA x ((y1, y2, y3) :: rest) =
      if x.1 + x.2.2 == y1 && x.2.1 + x.2.2 == y2 then
        mergeA (x.1, x.2.1, x.2.2 + y3) rest
      else x :: mergeA (y1, y2, y3) rest from rfl]
    by_cases hadj : x.1 + x.2.2 == y1 && x.2.1 + x.2.2 == y2
    · rw [if_pos hadj]
      have h1 : x.1 + x.2.2 = y1 := by
        have := hadj
        simp only [Bool.and_eq_true, beq_iff_eq] at this
        exact this.1
      have h2 : x.2.1 + x.2.2 = y2 := by
        have := hadj
        simp only [Bool.and_eq_true, beq_iff_eq] at this
        exact this.2
      apply ih (x.1, x.2.1, x.2.2 + y3) hi hj
      have h3 := h.2.2
      simp only at h3 ⊢
      rw [show x.1 + (x.2.2 + y3) = x.1 + x.2.2 + y3 by omega, h1,
        show x.2.1 + (x.2.2 + y3) = x.2.1 + x.2.2 + y3 by omega, h2]
      exact h3
    · rw [if_neg hadj]
      exact ⟨hi, hj, ih (y1, y2, y3) h.1 h.2.1 h.2.2⟩

theorem chainLe_mergeAdj {la lb i j : Nat} {bl : List (Nat × Nat × Nat)}
    (h : ChainLe la lb i j bl) : ChainLe la lb i j (mergeAdj bl) := by
  cases bl with
  | nil => exact h
  | cons x rest =>
    obtain ⟨x1, x2, x3⟩ := x
    exact chainLe_mergeA rest (x1, x2, x3) h.1 h.2.1 h.2.2

/-- The block walk of `get_opcodes`: consecutive blocks starting from
`(i, j)`, ending exactly at `(la, lb)` (the terminal block). -/
def BlocksEnd (la lb : Nat) : Nat → Nat → List (Nat × Nat × Nat) → Prop
  | i, j, [] => i = la ∧ j = lb
  | i, j, (ai, bj, sz) :: rest => i ≤ ai ∧ j ≤ bj ∧ BlocksEnd la lb (ai + sz) (bj + sz) rest

theorem blocksEnd_of_chainLe {la lb : Nat} : ∀ {bl i j}, ChainLe la lb i j bl →
    BlocksEnd la lb i j (bl ++ [(la, lb, 0)]) := by
  intro bl
  induction bl with
  | nil =>
    intro i j h
    exact ⟨h.1, h.2, by omega, by omega⟩
  | cons x rest ih =>
    intro i j h
    obtain ⟨x1, x2, x3⟩ := x
    exact ⟨h.1, h.2.1, ih h.2.2⟩

theorem blocksEnd_le {la lb : Nat} : ∀ {bl i j}, BlocksEnd la lb i j bl →
    i ≤ la ∧ j ≤ lb := by
  intro bl
  induction bl with
  | nil =>
    intro i j h
    obtain ⟨h1, h2⟩ := h
    omega
  | cons x rest ih =>
    intro i j h
    obtain ⟨x1, x2, x3⟩ := x
    obtain ⟨h1, h2, h3⟩ := h
    have := ih h3
    omega

theorem blocksEnd_get_opcodes (a b : List String) :
    BlocksEnd a.length b.length 0 0 (mergeAdj (mblocks a b) ++ [(a.length, b.length, 0)]) :=
  blocksEnd_of_chainLe (chainLe_mergeAdj (mblocksF_chain _ a b (le_refl _)))

/-- The A-side word ranges referenced by the opcodes, concatenated
(`insert` references no A-words). -/
def flatA (aw : List String) : List Op → List String
  | [] => []
  | op :: rest =>
    match op.tag with
    | OpTag.insert => flatA aw rest
    | _ => sliceL aw op.i1 op.i2 ++ flatA aw rest

/-- The B-side word ranges referenced by the opcodes, concatenated
(`delete` references no B-words). -/
def flatB (bw : List String) : List Op → List String
  | [] => []
  | op :: rest =>
    match op.tag with
    | OpTag.delete => flatB bw rest
    | _ => sliceL bw op.j1 op.j2 ++ flatB bw rest

theorem flatA_append (aw : List String) (l1 l2 : List Op) :
    flatA aw (l1 ++ l2) = flatA aw l1 ++ flatA aw l2 := by
  induction l1 with
  | nil => rfl
  | cons op rest ih =>
    cases h : op.tag <;> simp [flatA, h, ih]

theorem flatB_append (bw : List String) (l1 l2 : List Op) :
    flatB bw (l1 ++ l2) = flatB bw l1 ++ flatB bw l2 := by
  induction l1 with
  | nil => rfl
  | cons op rest ih =>
    cases h : op.tag <;> simp [flatB, h, ih]

theorem slice_glue (aw : List String) {i m : Nat} (h : i ≤ m) :
    (aw.drop i).take (m - i) ++ aw.drop m = aw.drop i := by
  have hdd : (aw.drop i).drop (m - i) = aw.drop m := by
    rw [List.drop_drop]
    congr 1
    omega
  conv_rhs => rw [← List.take_append_drop (m - i) (aw.drop i)]
  rw [hdd]

theorem flatA_ops (aw : List String) (lb : Nat) :
    ∀ (bl : List (Nat × Nat × Nat)) (i j : Nat), BlocksEnd aw.length lb i j bl →
      flatA aw (opsFromBlocks i j bl) = aw.drop i := by
  intro bl
  induction bl with
  | nil =>
    intro i j h
    obtain ⟨h1, h2⟩ := h
    rw [show opsFromBlocks i j [] = [] from rfl]
    rw [show flatA aw [] = [] from rfl, h1, List.drop_length]
  | cons x rest ih =>
    intro i j h
    obtain ⟨ai, bj, sz⟩ := x
    obtain ⟨h1, h2, h3⟩ := h
    have hrec := ih (ai + sz) (bj + sz) h3
    rw [show opsFromBlocks i j ((ai, bj, sz) :: rest) =
      (if i < ai ∧ j < bj then [⟨OpTag.replace, i, ai, j, bj⟩]
       else if i < ai then [⟨OpTag.delete, i, ai, j, bj⟩]
       else if j < bj then [⟨OpTag.insert, i, ai, j, bj⟩]
       else []) ++
        (if sz ≠ 0 then [⟨OpTag.equal, ai, ai + sz, bj, bj + sz⟩] else []) ++
          opsFromBlocks (ai + sz) (bj + sz) rest from rfl]
    rw [flatA_append, flatA_append, hrec]
    have hgap : flatA aw
        (if i < ai ∧ j < bj then [⟨OpTag.replace, i, ai, j, bj⟩]
         else if i < ai then [⟨OpTag.delete, i, ai, j, bj⟩]
         else if j < bj then [⟨OpTag.insert, i, ai, j, bj⟩]
         else []) = (aw.drop i).take (ai - i) := by
      split
      · simp [flatA, sliceL]
      · split
        · simp [flatA, sliceL]
        · split
          · rename_i hnab hna hjb
            have hia : i = ai := by omega
            simp [flatA, hia, sliceL]
          · rename_i hnab hna hjb
            have hia : i = ai := by omega
            simp [flatA, hia, sliceL]
    have heq : flatA aw (if sz ≠ 0 then [⟨OpTag.equal, ai, ai + sz, bj, bj + sz⟩] else []) =
        (aw.drop ai).take sz := by
      split
      · simp [flatA, sliceL]
      · rename_i hsz
        have hz : sz = 0 := by omega
        simp [flatA, hz]
    have hinner : (aw.drop ai).take sz ++ aw.drop (ai + sz) = aw.drop ai := by
      have hs := slice_glue aw (show ai ≤ ai + sz by omega)
      rwa [show ai + sz - ai = sz by omega] at hs
    rw [hgap, heq, List.append_assoc, hinner, slice_glue aw h1]

theorem flatB_ops (bw : List String) (la : Nat) :
    ∀ (bl : List (Nat × Nat × Nat)) (i j : Nat), BlocksEnd la bw.length i j bl →
      flatB bw (opsFromBlocks i j bl) = bw.drop j := by
  intro bl
  induction bl with
  | nil =>
    intro i j h
    obtain ⟨h1, h2⟩ := h
    rw [show opsFromBlocks i j [] = [] from rfl]
    rw [show flatB bw [] = [] from rfl, h2, List.drop_length]
  | cons x rest ih =>
    intro i j h
    obtain ⟨ai, bj, sz⟩ := x
    obtain ⟨h1, h2, h3⟩ := h
    have hrec := ih (ai + sz) (bj + sz) h3
    rw [show opsFromBlocks i j ((ai, bj, sz) :: rest) =
      (if i < ai ∧ j < bj then [⟨OpTag.replace, i, ai, j, bj⟩]
       else if i < ai then [⟨OpTag.delete, i, ai, j, bj⟩]
       else if j < bj then [⟨OpTag.insert, i, ai, j, bj⟩]
       else []) ++
        (if sz ≠ 0 then [⟨OpTag.equal, ai, ai + sz, bj, bj + sz⟩] else []) ++
          opsFromBlocks (ai + sz) (bj + sz) rest from rfl]
    rw [flatB_append, flatB_append, hrec]
    have hgap : flatB bw
        (if i < ai ∧ j < bj then [⟨OpTag.replace, i, ai, j, bj⟩]
         else if i < ai then [⟨OpTag.delete, i, ai, j, bj⟩]
         else if j < bj then [⟨OpTag.insert, i, ai, j, bj⟩]
         else []) = (bw.drop j).take (bj - j) := by
      split
      · simp [flatB, sliceL]
      · split
        · rename_i hnab hia
          have hjb : j = bj := by omega
          simp [flatB, hjb, sliceL]
        · split
          · simp [flatB, sliceL]
          · rename_i hnab hna hjb
            have hjj : j = bj := by omega
            simp [flatB, hjj, sliceL]
    have heq : flatB bw (if sz ≠ 0 then [⟨OpTag.equal, ai, ai + sz, bj, bj + sz⟩] else []) =
        (bw.drop bj).take sz := by
      split
      · simp [flatB, sliceL]
      · rename_i hsz
        have hz : sz = 0 := by omega
        simp [flatB, hz]
    have hinner : (bw.drop bj).take sz ++ bw.drop (bj + sz) = bw.drop bj := by
      have hs := slice_glue bw (show bj ≤ bj + sz by omega)
      rwa [show bj + sz - bj = sz by omega] at hs
    rw [hgap, heq, List.append_assoc, hinner, slice_glue bw h2]

theorem flatA_get_opcodes (a b : List String) : flatA a (get_opcodes a b) = a := by
  have h := flatA_ops a b.length _ 0 0 (blocksEnd_get_opcodes a b)
  simpa [get_opcodes] using h

theorem flatB_get_opcodes (a b : List String) : flatB b (get_opcodes a b) = b := by
  have h := flatB_ops b a.length _ 0 0 (blocksEnd_get_opcodes a b)
  simpa [get_opcodes] using h

/-- Well-formedness facts for opcodes produced by `opsFromBlocks`. -/
def OpWF (la lb : Nat) (op : Op) : Prop :=
  op.i1 ≤ op.i2 ∧ op.i2 ≤ la ∧ op.j1 ≤ op.j2 ∧ op.j2 ≤ lb ∧
    ((op.tag = OpTag.delete ∨ op.tag = OpTag.replace) → op.i1 < op.i2) ∧
    ((op.tag = OpTag.insert ∨ op.tag = OpTag.replace) → op.j1 < op.j2)

theorem opsFromBlocks_wf {la lb : Nat} : ∀ (bl : List (Nat × Nat × Nat)) (i j : Nat),
    BlocksEnd la lb i j bl → ∀ op ∈ opsFromBlocks i j bl, OpWF la lb op := by
  intro bl
  induction bl with
  | nil =>
    intro i j _ op hop
    rw [show opsFromBlocks i j [] = [] from rfl] at hop
    cases hop
  | cons x rest ih =>
    intro i j h op hop
    obtain ⟨ai, bj, sz⟩ := x
    obtain ⟨h1, h2, h3⟩ := h
    have hb := blocksEnd_le h3
    have hb1 : ai + sz ≤ la := hb.1
    have hb2 : bj + sz ≤ lb := hb.2
    rw [show opsFromBlocks i j ((ai, bj, sz) :: rest) =
      (if i < ai ∧ j < bj then [⟨OpTag.replace, i, ai, j, bj⟩]
       else if i < ai then [⟨OpTag.delete, i, ai, j, bj⟩]
       else if j < bj then [⟨OpTag.insert, i, ai, j, bj⟩]
       else []) ++
        (if sz ≠ 0 then [⟨OpTag.equal, ai, ai + sz, bj, bj + sz⟩] else []) ++
          opsFromBlocks (ai + sz) (bj + sz) rest from rfl] at hop
    have h1' : i ≤ ai := h1
    have h2' : j ≤ bj := h2
    rcases List.mem_append.mp hop with hop1 | hoprec
    · rcases List.mem_append.mp hop1 with hgap | heq
      · split at hgap
        · rename_i hij
          rcases List.mem_singleton.mp hgap with rfl
          refine ⟨?_, ?_, ?_, ?_, fun _ => hij.1, fun _ => hij.2⟩
          · show i ≤ ai
            omega
          · show ai ≤ la
            omega
          · show j ≤ bj
            omega
          · show bj ≤ lb
            omega
        · split at hgap
          · rename_i hnij hi
            rcases List.mem_singleton.mp hgap with rfl
            refine ⟨?_, ?_, ?_, ?_, fun _ => hi, fun hc => ?_⟩
            · show i ≤ ai
              omega
            · show ai ≤ la
              omega
            · show j ≤ bj
              omega
            · show bj ≤ lb
              omega
            · rcases hc with hc | hc <;> cases hc
          · split at hgap
            · rename_i hnij hni hj
              rcases List.mem_singleton.mp hgap with rfl
              refine ⟨?_, ?_, ?_, ?_, fun hc => ?_, fun _ => hj⟩
              · show i ≤ ai
                omega
              · show ai ≤ la
                omega
              · show j ≤ bj
                omega
              · show bj ≤ lb
                omega
              · rcases hc with hc | hc <;> cases hc
            · cases hgap
      · split at heq
        · rcases List.mem_singleton.mp heq with rfl
          refine ⟨?_, ?_, ?_, ?_, fun hc => ?_, fun hc => ?_⟩
          · show ai ≤ ai + sz
            omega
          · show ai + sz ≤ la
            omega
          · show bj ≤ bj + sz
            omega
          · show bj + sz ≤ lb
            omega
          · rcases hc with hc | hc <;> cases hc
          · rcases hc with hc | hc <;> cases hc
        · cases heq
    · exact ih (ai + sz) (bj + sz) h3 op hoprec

theorem slice_ne_nil {l : List String} {i1 i2 : Nat} (h1 : i1 < i2) (h2 : i2 ≤ l.length) :
    sliceL l i1 i2 ≠ [] := by
  have hlen : (sliceL l i1 i2).length = min (i2 - i1) (l.length - i1) := by
    unfold sliceL
    rw [List.length_take, List.length_drop]
  intro hnil
  rw [hnil] at hlen
  simp at hlen
  omega

/-! ## Piece classification of a highlighted side -/

/-- A piece of one highlighted side: a plain copied word, or a marked
word range. -/
inductive PieceC where
  | plain (t : List Char)
  | wrap (w : List Char)

/-- Piece text with both tags present. -/
def pcStr (sT eT : List Char) : PieceC → List Char
  | PieceC.plain t => t
  | PieceC.wrap w => sT ++ w ++ eT

/-- Piece text after the opening tag has been removed. -/
def pcStr1 (eT : List Char) : PieceC → List Char
  | PieceC.plain t => t
  | PieceC.wrap w => w ++ eT

/-- Piece text after both tags have been removed. -/
def pcStr2 : PieceC → List Char
  | PieceC.plain t => t
  | PieceC.wrap w => w

/-- The pattern `pat` occurs neither in a plain piece's word nor in a
wrapped piece's interior. -/
def PcClean (pat : List Char) : PieceC → Prop
  | PieceC.plain t => Clean pat t
  | PieceC.wrap w => Clean pat w

/-- The pieces of the A side (`a_hl`). -/
def piecesA (aw : List String) : List Op → List PieceC
  | [] => []
  | op :: rest =>
    match op.tag with
    | OpTag.equal =>
      (sliceL aw op.i1 op.i2).map (fun t => PieceC.plain t.data) ++ piecesA aw rest
    | OpTag.insert => piecesA aw rest
    | _ =>
      PieceC.wrap (sepJoin ((sliceL aw op.i1 op.i2).map String.data)) :: piecesA aw rest

/-- The pieces of the B side (`b_hl`). -/
def piecesB (bw : List String) : List Op → List PieceC
  | [] => []
  | op :: rest =>
    match op.tag with
    | OpTag.equal =>
      (sliceL bw op.j1 op.j2).map (fun t => PieceC.plain t.data) ++ piecesB bw rest
    | OpTag.delete => piecesB bw rest
    | _ =>
      PieceC.wrap (sepJoin ((sliceL bw op.j1 op.j2).map String.data)) :: piecesB bw rest

theorem hl1_pieces (aw bw : List String) : ∀ ops : List Op,
    (hl_lists aw bw ops).1.map String.data =
      (piecesA aw ops).map (pcStr delOpenTag delCloseTag) := by
  intro ops
  induction ops with
  | nil => rfl
  | cons op rest ih =>
    cases htag : op.tag with
    | equal =>
      simp only [hl_lists, htag, piecesA, List.map_append, List.map_map, ih]
      rfl
    | delete =>
      simp only [hl_lists, htag, piecesA, List.map_cons, ih, List.cons.injEq, and_true]
      rw [string_data_append, string_data_append, joinSp_data]
      rfl
    | insert =>
      simp only [hl_lists, htag, piecesA, ih]
    | replace =>
      simp only [hl_lists, htag, piecesA, List.map_cons, ih, List.cons.injEq, and_true]
      rw [string_data_append, string_data_append, joinSp_data]
      rfl

theorem hl2_pieces (aw bw : List String) : ∀ ops : List Op,
    (hl_lists aw bw ops).2.map String.data =
      (piecesB bw ops).map (pcStr insOpenTag insCloseTag) := by
  intro ops
  induction ops with
  | nil => rfl
  | cons op rest ih =>
    cases htag : op.tag with
    | equal =>
      simp only [hl_lists, htag, piecesB, List.map_append, List.map_map, ih]
      rfl
    | insert =>
      simp only [hl_lists, htag, piecesB, List.map_cons, ih, List.cons.injEq, and_true]
      rw [string_data_append, string_data_append, joinSp_data]
      rfl
    | delete =>
      simp only [hl_lists, htag, piecesB, ih]
    | replace =>
      simp only [hl_lists, htag, piecesB, List.map_cons, ih, List.cons.injEq, and_true]
      rw [string_data_append, string_data_append, joinSp_data]
      rfl

/-! ## The two tag-removal passes over a highlighted side -/

theorem preSp_head_cond {pat : List Char} (hsp : ' ' ∉ pat) (ps : List (List Char)) :
    ∀ c, (preSp ps).head? = some c → c ∉ pat.drop 1 := by
  intro c hc
  cases ps with
  | nil => simp [preSp] at hc
  | cons q qs =>
    simp only [preSp, List.head?_cons, Option.some.injEq] at hc
    subst hc
    intro hmem
    exact hsp (List.drop_subset 1 pat hmem)

theorem eT_head_cond {sT eT : List Char} (hlt : '<' ∉ sT.drop 1)
    (hehd : eT.head? = some '<') (z : List Char) :
    ∀ c, (eT ++ z).head? = some c → c ∉ sT.drop 1 := by
  intro c hc
  cases eT with
  | nil => simp at hehd
  | cons e0 es =>
    simp only [List.head?_cons, Option.some.injEq] at hehd
    simp only [List.cons_append, List.head?_cons, Option.some.injEq] at hc
    subst hc
    subst hehd
    exact hlt

theorem pass1 {sT eT : List Char} (hne : sT ≠ []) (hsp : ' ' ∉ sT)
    (hlt : '<' ∉ sT.drop 1) (hce : Clean sT eT) (hehd : eT.head? = some '<') :
    ∀ pcs : List PieceC, (∀ pc ∈ pcs, PcClean sT pc) →
      raux sT (sepJoin (pcs.map (pcStr sT eT))) 0 = sepJoin (pcs.map (pcStr1 eT)) := by
  intro pcs
  induction pcs with
  | nil =>
    intro _
    rfl
  | cons pc rest ih =>
    intro hcl
    have ihr := ih (fun q hq => hcl q (List.mem_cons_of_mem _ hq))
    have hQR : raux sT (preSp (rest.map (pcStr sT eT))) 0 =
        preSp (rest.map (pcStr1 eT)) := by
      cases rest with
      | nil => rfl
      | cons q qs =>
        have h1 : preSp ((q :: qs).map (pcStr sT eT)) =
            ' ' :: sepJoin ((q :: qs).map (pcStr sT eT)) := by
          rw [List.map_cons, preSp_cons]
        have h2 : preSp ((q :: qs).map (pcStr1 eT)) =
            ' ' :: sepJoin ((q :: qs).map (pcStr1 eT)) := by
          rw [List.map_cons, preSp_cons]
        rw [h1, raux_space hne hsp, ihr, h2]
    cases pc with
    | plain t =>
      have hct : Clean sT t := hcl (PieceC.plain t) (List.mem_cons_self _ _)
      rw [List.map_cons, List.map_cons,
        show pcStr sT eT (PieceC.plain t) = t from rfl,
        show pcStr1 eT (PieceC.plain t) = t from rfl,
        show sepJoin (t :: rest.map (pcStr sT eT)) =
          t ++ preSp (rest.map (pcStr sT eT)) from rfl,
        show sepJoin (t :: rest.map (pcStr1 eT)) =
          t ++ preSp (rest.map (pcStr1 eT)) from rfl,
        raux_skip_clean_cross t _ hct (preSp_head_cond hsp _), hQR]
    | wrap w =>
      have hcw : Clean sT w := hcl (PieceC.wrap w) (List.mem_cons_self _ _)
      rw [List.map_cons, List.map_cons,
        show pcStr sT eT (PieceC.wrap w) = sT ++ w ++ eT from rfl,
        show pcStr1 eT (PieceC.wrap w) = w ++ eT from rfl,
        show sepJoin ((sT ++ w ++ eT) :: rest.map (pcStr sT eT)) =
          (sT ++ w ++ eT) ++ preSp (rest.map (pcStr sT eT)) from rfl,
        show sepJoin ((w ++ eT) :: rest.map (pcStr1 eT)) =
          (w ++ eT) ++ preSp (rest.map (pcStr1 eT)) from rfl]
      simp only [List.append_assoc]
      rw [raux_removes hne,
        raux_skip_clean_cross w _ hcw (eT_head_cond hlt hehd _),
        raux_skip_clean_cross eT _ hce (preSp_head_cond hsp _), hQR]

theorem pass2 {eT : List Char} (hne : eT ≠ []) (hsp : ' ' ∉ eT)
    (hlt : '<' ∉ eT.drop 1) (hehd : eT.head? = some '<') :
    ∀ pcs : List PieceC, (∀ pc ∈ pcs, PcClean eT pc) →
      raux eT (sepJoin (pcs.map (pcStr1 eT))) 0 = sepJoin (pcs.map pcStr2) := by
  intro pcs
  induction pcs with
  | nil =>
    intro _
    rfl
  | cons pc rest ih =>
    intro hcl
    have ihr := ih (fun q hq => hcl q (List.mem_cons_of_mem _ hq))
    have hQR : raux eT (preSp (rest.map (pcStr1 eT))) 0 = preSp (rest.map pcStr2) := by
      cases rest with
      | nil => rfl
      | cons q qs =>
        have h1 : preSp ((q :: qs).map (pcStr1 eT)) =
            ' ' :: sepJoin ((q :: qs).map (pcStr1 eT)) := by
          rw [List.map_cons, preSp_cons]
        have h2 : preSp ((q :: qs).map pcStr2) =
            ' ' :: sepJoin ((q :: qs).map pcStr2) := by
          rw [List.map_cons, preSp_cons]
        rw [h1, raux_space hne hsp, ihr, h2]
    cases pc with
    | plain t =>
      have hct : Clean eT t := hcl (PieceC.plain t) (List.mem_cons_self _ _)
      rw [List.map_cons, List.map_cons,
        show pcStr1 eT (PieceC.plain t) = t from rfl,
        show pcStr2 (PieceC.plain t) = t from rfl,
        show sepJoin (t :: rest.map (pcStr1 eT)) =
          t ++ preSp (rest.map (pcStr1 eT)) from rfl,
        show sepJoin (t :: rest.map pcStr2) = t ++ preSp (rest.map pcStr2) from rfl,
        raux_skip_clean_cross t _ hct (preSp_head_cond hsp _), hQR]
    | wrap w =>
      have hcw : Clean eT w := hcl (PieceC.wrap w) (List.mem_cons_self _ _)
      rw [List.map_cons, List.map_cons,
        show pcStr1 eT (PieceC.wrap w) = w ++ eT from rfl,
        show pcStr2 (PieceC.wrap w) = w from rfl,
        show sepJoin ((w ++ eT) :: rest.map (pcStr1 eT)) =
          (w ++ eT) ++ preSp (rest.map (pcStr1 eT)) from rfl,
        show sepJoin (w :: rest.map pcStr2) = w ++ preSp (rest.map pcStr2) from rfl]
      simp only [List.append_assoc]
      rw [raux_skip_clean_cross w _ hcw (eT_head_cond hlt hehd _), raux_removes hne, hQR]

/-! ## Flattening the stripped pieces back to the token list -/

theorem sepJoin_eq_of_preSp {X Y : List (List Char)} (h : preSp X = preSp Y) :
    sepJoin X = sepJoin Y := by
  cases X with
  | nil =>
    cases Y with
    | nil => rfl
    | cons y ys => simp [preSp] at h
  | cons x xs =>
    cases Y with
    | nil => simp [preSp] at h
    | cons y ys =>
      rw [preSp_cons, preSp_cons] at h
      exact List.tail_eq_of_cons_eq h

theorem slice_mem {l : List String} {i1 i2 : Nat} {t : String}
    (h : t ∈ sliceL l i1 i2) : t ∈ l := by
  unfold sliceL at h
  exact List.mem_of_mem_drop (List.mem_of_mem_take h)

theorem preSp_pieces_flatA (aw : List String) : ∀ ops : List Op,
    (∀ op ∈ ops, (op.tag = OpTag.delete ∨ op.tag = OpTag.replace) →
      sliceL aw op.i1 op.i2 ≠ []) →
    preSp ((piecesA aw ops).map pcStr2) = preSp ((flatA aw ops).map String.data) := by
  intro ops
  induction ops with
  | nil =>
    intro _
    rfl
  | cons op rest ih =>
    intro hwf
    have ihr := ih (fun q hq => hwf q (List.mem_cons_of_mem _ hq))
    cases htag : op.tag with
    | equal =>
      rw [show piecesA aw (op :: rest) =
        (sliceL aw op.i1 op.i2).map (fun t => PieceC.plain t.data) ++ piecesA aw rest from by
          rw [show piecesA aw (op :: rest) = match op.tag with
            | OpTag.equal =>
              (sliceL aw op.i1 op.i2).map (fun t => PieceC.plain t.data) ++ piecesA aw rest
            | OpTag.insert => piecesA aw rest
            | _ => PieceC.wrap (sepJoin ((sliceL aw op.i1 op.i2).map String.data)) ::
                piecesA aw rest from rfl, htag]]
      rw [show flatA aw (op :: rest) = sliceL aw op.i1 op.i2 ++ flatA aw rest from by
        rw [show flatA aw (op :: rest) = match op.tag with
          | OpTag.insert => flatA aw rest
          | _ => sliceL aw op.i1 op.i2 ++ flatA aw rest from rfl, htag]]
      rw [List.map_append, List.map_append, preSp_append, preSp_append, ihr, List.map_map]
      rfl
    | insert =>
      rw [show piecesA aw (op :: rest) = piecesA aw rest from by
        rw [show piecesA aw (op :: rest) = match op.tag with
          | OpTag.equal =>
            (sliceL aw op.i1 op.i2).map (fun t => PieceC.plain t.data) ++ piecesA aw rest
          | OpTag.insert => piecesA aw rest
          | _ => PieceC.wrap (sepJoin ((sliceL aw op.i1 op.i2).map String.data)) ::
              piecesA aw rest from rfl, htag]]
      rw [show flatA aw (op :: rest) = flatA aw rest from by
        rw [show flatA aw (op :: rest) = match op.tag with
          | OpTag.insert => flatA aw rest
          | _ => sliceL aw op.i1 op.i2 ++ flatA aw rest from rfl, htag]]
      exact ihr
    | delete =>
      have hsl : sliceL aw op.i1 op.i2 ≠ [] :=
        hwf op (List.mem_cons_self _ _) (Or.inl htag)
      rw [show piecesA aw (op :: rest) =
        PieceC.wrap (sepJoin ((sliceL aw op.i1 op.i2).map String.data)) ::
          piecesA aw rest from by
        rw [show piecesA aw (op :: rest) = match op.tag with
          | OpTag.equal =>
            (sliceL aw op.i1 op.i2).map (fun t => PieceC.plain t.data) ++ piecesA aw rest
          | OpTag.insert => piecesA aw rest
          | _ => PieceC.wrap (sepJoin ((sliceL aw op.i1 op.i2).map String.data)) ::
              piecesA aw rest from rfl, htag]]
      rw [show flatA aw (op :: rest) = sliceL aw op.i1 op.i2 ++ flatA aw rest from by
        rw [show flatA aw (op :: rest) = match op.tag with
          | OpTag.insert => flatA aw rest
          | _ => sliceL aw op.i1 op.i2 ++ flatA aw rest from rfl, htag]]
      rw [List.map_cons, List.map_append, preSp_append]
      rw [show pcStr2 (PieceC.wrap (sepJoin ((sliceL aw op.i1 op.i2).map String.data))) =
        sepJoin ((sliceL aw op.i1 op.i2).map String.data) from rfl]
      obtain ⟨t0, ts, hts⟩ := List.exists_cons_of_ne_nil hsl
      rw [hts, List.map_cons]
      show ' ' :: ((t0.data ++ preSp (List.map String.data ts)) ++
          preSp (List.map pcStr2 (piecesA aw rest))) =
        ' ' :: ((t0.data ++ preSp (List.map String.data ts)) ++
          preSp (List.map String.data (flatA aw rest)))
      rw [ihr]
    | replace =>
      have hsl : sliceL aw op.i1 op.i2 ≠ [] :=
        hwf op (List.mem_cons_self _ _) (Or.inr htag)
      rw [show piecesA aw (op :: rest) =
        PieceC.wrap (sepJoin ((sliceL aw op.i1 op.i2).map String.data)) ::
          piecesA aw rest from by
        rw [show piecesA aw (op :: rest) = match op.tag with
          | OpTag.equal =>
            (sliceL aw op.i1 op.i2).map (fun t => PieceC.plain t.data) ++ piecesA aw rest
          | OpTag.insert => piecesA aw rest
          | _ => PieceC.wrap (sepJoin ((sliceL aw op.i1 op.i2).map String.data)) ::
              piecesA aw rest from rfl, htag]]
      rw [show flatA aw (op :: rest) = sliceL aw op.i1 op.i2 ++ flatA aw rest from by
        rw [show flatA aw (op :: rest) = match op.tag with
          | OpTag.insert => flatA aw rest
          | _ => sliceL aw op.i1 op.i2 ++ flatA aw rest from rfl, htag]]
      rw [List.map_cons, List.map_append, preSp_append]
      rw [show pcStr2 (PieceC.wrap (sepJoin ((sliceL aw op.i1 op.i2).map String.data))) =
        sepJoin ((sliceL aw op.i1 op.i2).map String.data) from rfl]
      obtain ⟨t0, ts, hts⟩ := List.exists_cons_of_ne_nil hsl
      rw [hts, List.map_cons]
      show ' ' :: ((t0.data ++ preSp (List.map String.data ts)) ++
          preSp (List.map pcStr2 (piecesA aw rest))) =
        ' ' :: ((t0.data ++ preSp (List.map String.data ts)) ++
          preSp (List.map String.data (flatA aw rest)))
      rw [ihr]

theorem preSp_pieces_flatB (bw : List String) : ∀ ops : List Op,
    (∀ op ∈ ops, (op.tag = OpTag.insert ∨ op.tag = OpTag.replace) →
      sliceL bw op.j1 op.j2 ≠ []) →
    preSp ((piecesB bw ops).map pcStr2) = preSp ((flatB bw ops).map String.data) := by
  intro ops
  induction ops with
  | nil =>
    intro _
    rfl
  | cons op rest ih =>
    intro hwf
    have ihr := ih (fun q hq => hwf q (List.mem_cons_of_mem _ hq))
    cases htag : op.tag with
    | equal =>
      rw [show piecesB bw (op :: rest) =
        (sliceL bw op.j1 op.j2).map (fun t => PieceC.plain t.data) ++ piecesB bw rest from by
          rw [show piecesB bw (op :: rest) = match op.tag with
            | OpTag.equal =>
              (sliceL bw op.j1 op.j2).map (fun t => PieceC.plain t.data) ++ piecesB bw rest
            | OpTag.delete => piecesB bw rest
            | _ => PieceC.wrap (sepJoin ((sliceL bw op.j1 op.j2).map String.data)) ::
                piecesB bw rest from rfl, htag]]
      rw [show flatB bw (op :: rest) = sliceL bw op.j1 op.j2 ++ flatB bw rest from by
        rw [show flatB bw (op :: rest) = match op.tag with
          | OpTag.delete => flatB bw rest
          | _ => sliceL bw op.j1 op.j2 ++ flatB bw rest from rfl, htag]]
      rw [List.map_append, List.map_append, preSp_append, preSp_append, ihr, List.map_map]
      rfl
    | delete =>
      rw [show piecesB bw (op :: rest) = piecesB bw rest from by
        rw [show piecesB bw (op :: rest) = match op.tag with
          | OpTag.equal =>
            (sliceL bw op.j1 op.j2).map (fun t => PieceC.plain t.data) ++ piecesB bw rest
          | OpTag.delete => piecesB bw rest
          | _ => PieceC.wrap (sepJoin ((sliceL bw op.j1 op.j2).map String.data)) ::
              piecesB bw rest from rfl, htag]]
      rw [show flatB bw (op :: rest) = flatB bw rest from by
        rw [show flatB bw (op :: rest) = match op.tag with
          | OpTag.delete => flatB bw rest
          | _ => sliceL bw op.j1 op.j2 ++ flatB bw rest from rfl, htag]]
      exact ihr
    | insert =>
      have hsl : sliceL bw op.j1 op.j2 ≠ [] :=
        hwf op (List.mem_cons_self _ _) (Or.inl htag)
      rw [show piecesB bw (op :: rest) =
        PieceC.wrap (sepJoin ((sliceL bw op.j1 op.j2).map String.data)) ::
          piecesB bw rest from by
        rw [show piecesB bw (op :: rest) = match op.tag with
          | OpTag.equal =>
            (sliceL bw op.j1 op.j2).map (fun t => PieceC.plain t.data) ++ piecesB bw rest
          | OpTag.delete => piecesB bw rest
          | _ => PieceC.wrap (sepJoin ((sliceL bw op.j1 op.j2).map String.data)) ::
              piecesB bw rest from rfl, htag]]
      rw [show flatB bw (op :: rest) = sliceL bw op.j1 op.j2 ++ flatB bw rest from by
        rw [show flatB bw (op :: rest) = match op.tag with
          | OpTag.delete => flatB bw rest
          | _ => sliceL bw op.j1 op.j2 ++ flatB bw rest from rfl, htag]]
      rw [List.map_cons, List.map_append, preSp_append]
      rw [show pcStr2 (PieceC.wrap (sepJoin ((sliceL bw op.j1 op.j2).map String.data))) =
        sepJoin ((sliceL bw op.j1 op.j2).map String.data) from rfl]
      obtain ⟨t0, ts, hts⟩ := List.exists_cons_of_ne_nil hsl
      rw [hts, List.map_cons]
      show ' ' :: ((t0.data ++ preSp (List.map String.data ts)) ++
          preSp (List.map pcStr2 (piecesB bw rest))) =
        ' ' :: ((t0.data ++ preSp (List.map String.data ts)) ++
          preSp (List.map String.data (flatB bw rest)))
      rw [ihr]
    | replace =>
      have hsl : sliceL bw op.j1 op.j2 ≠ [] :=
        hwf op (List.mem_cons_self _ _) (Or.inr htag)
      rw [show piecesB bw (op :: rest) =
        PieceC.wrap (sepJoin ((sliceL bw op.j1 op.j2).map String.data)) ::
          piecesB bw rest from by
        rw [show piecesB bw (op :: rest) = match op.tag with
          | OpTag.equal =>
            (sliceL bw op.j1 op.j2).map (fun t => PieceC.plain t.data) ++ piecesB bw rest
          | OpTag.delete => piecesB bw rest
          | _ => PieceC.wrap (sepJoin ((sliceL bw op.j1 op.j2).map String.data)) ::
              piecesB bw rest from rfl, htag]]
      rw [show flatB bw (op :: rest) = sliceL bw op.j1 op.j2 ++ flatB bw rest from by
        rw [show flatB bw (op :: rest) = match op.tag with
          | OpTag.delete => flatB bw rest
          | _ => sliceL bw op.j1 op.j2 ++ flatB bw rest from rfl, htag]]
      rw [List.map_cons, List.map_append, preSp_append]
      rw [show pcStr2 (PieceC.wrap (sepJoin ((sliceL bw op.j1 op.j2).map String.data))) =
        sepJoin ((sliceL bw op.j1 op.j2).map String.data) from rfl]
      obtain ⟨t0, ts, hts⟩ := List.exists_cons_of_ne_nil hsl
      rw [hts, List.map_cons]
      show ' ' :: ((t0.data ++ preSp (List.map String.data ts)) ++
          preSp (List.map pcStr2 (piecesB bw rest))) =
        ' ' :: ((t0.data ++ preSp (List.map String.data ts)) ++
          preSp (List.map String.data (flatB bw rest)))
      rw [ihr]

/-! ## Tokens are substrings of their source string -/

/-- `w` appears contiguously in `l`. -/
def SubAt (w l : List Char) : Prop := ∃ k, IsPre w (l.drop k)

theorem subAt_of_append_left {w x : List Char} (y : List Char) (h : SubAt w x) :
    SubAt w (x ++ y) := by
  obtain ⟨k, r, hr⟩ := h
  rcases le_or_lt k x.length with hk | hk
  · refine ⟨k, r ++ y, ?_⟩
    rw [List.drop_append_eq_append_drop, show k - x.length = 0 by omega, List.drop_zero, hr,
      List.append_assoc]
  · rw [List.drop_eq_nil_of_le (by omega)] at hr
    have hw : w = [] := (List.append_eq_nil.mp hr.symm).1
    exact ⟨0, x ++ y, by rw [hw, List.drop_zero, List.nil_append]⟩

theorem subAt_of_append_right {w y : List Char} (x : List Char) (h : SubAt w y) :
    SubAt w (x ++ y) := by
  obtain ⟨k, r, hr⟩ := h
  refine ⟨x.length + k, r, ?_⟩
  rw [List.drop_append_eq_append_drop, List.drop_eq_nil_of_le (by omega),
    show x.length + k - x.length = k by omega, List.nil_append, hr]

theorem splitAux_sub : ∀ (l acc w : List Char), w ∈ splitAux l acc →
    SubAt w (acc.reverse ++ l) := by
  intro l
  induction l with
  | nil =>
    intro acc w hw
    rw [show splitAux [] acc = if acc.isEmpty then [] else [acc.reverse] from rfl] at hw
    split at hw
    · cases hw
    · rcases List.mem_singleton.mp hw with rfl
      exact ⟨0, [], by simp⟩
  | cons c cs ih =>
    intro acc w hw
    rw [show splitAux (c :: cs) acc =
      if isSpc c then
        (if acc.isEmpty then splitAux cs [] else acc.reverse :: splitAux cs [])
      else splitAux cs (c :: acc) from rfl] at hw
    split at hw
    · split at hw
      · have := ih [] w hw
        rw [List.reverse_nil, List.nil_append] at this
        exact subAt_of_append_right _ (subAt_of_append_right [c] this)
      · rcases List.mem_cons.mp hw with rfl | hw'
        · exact ⟨0, c :: cs, by simp⟩
        · have := ih [] w hw'
          rw [List.reverse_nil, List.nil_append] at this
          exact subAt_of_append_right _ (subAt_of_append_right [c] this)
    · have := ih (c :: acc) w hw
      rw [List.reverse_cons, List.append_assoc] at this
      simpa using this

theorem clean_ne_nil {pat l : List Char} (h : Clean pat l) : pat ≠ [] := by
  intro hnil
  exact h 0 ⟨l.drop 0, by rw [hnil, List.nil_append]⟩

theorem clean_of_subAt {pat w l : List Char} (hw : SubAt w l) (hl : Clean pat l) :
    Clean pat w := by
  have hne := clean_ne_nil hl
  obtain ⟨k0, r0, hr0⟩ := hw
  intro k hk
  rcases le_or_lt w.length k with hge | hlt
  · rw [List.drop_eq_nil_of_le hge] at hk
    exact hne (isPre_nil_right hk)
  · obtain ⟨r, hr⟩ := hk
    apply hl (k0 + k)
    refine ⟨r ++ r0, ?_⟩
    have : l.drop (k0 + k) = (l.drop k0).drop k := by
      rw [List.drop_drop]
    rw [this, hr0, List.drop_append_eq_append_drop, show k - w.length = 0 by omega,
      List.drop_zero, hr, List.append_assoc]

/-- Every token produced by `pySplit` is clean whenever the source
string is. -/
theorem pySplit_clean {pat : List Char} {a : String} (ha : Clean pat a.data) :
    ∀ t ∈ pySplit a, Clean pat t.data := by
  intro t ht
  obtain ⟨l, hl, rfl⟩ := List.mem_map.mp ht
  have hsub := splitAux_sub a.data [] l hl
  rw [List.reverse_nil, List.nil_append] at hsub
  exact clean_of_subAt hsub ha

theorem piecesA_clean {pat : List Char} (hne : pat ≠ []) (hsp : ' ' ∉ pat)
    {aw : List String} (htok : ∀ t ∈ aw, Clean pat t.data) :
    ∀ ops : List Op, ∀ pc ∈ piecesA aw ops, PcClean pat pc := by
  intro ops
  induction ops with
  | nil =>
    intro pc hpc
    cases hpc
  | cons op rest ih =>
    intro pc hpc
    cases htag : op.tag with
    | equal =>
      rw [show piecesA aw (op :: rest) = match op.tag with
        | OpTag.equal =>
          (sliceL aw op.i1 op.i2).map (fun t => PieceC.plain t.data) ++ piecesA aw rest
        | OpTag.insert => piecesA aw rest
        | _ => PieceC.wrap (sepJoin ((sliceL aw op.i1 op.i2).map String.data)) ::
            piecesA aw rest from rfl, htag] at hpc
      rcases List.mem_append.mp hpc with h1 | h2
      · obtain ⟨t, htm, rfl⟩ := List.mem_map.mp h1
        exact htok t (slice_mem htm)
      · exact ih pc h2
    | insert =>
      rw [show piecesA aw (op :: rest) = match op.tag with
        | OpTag.equal =>
          (sliceL aw op.i1 op.i2).map (fun t => PieceC.plain t.data) ++ piecesA aw rest
        | OpTag.insert => piecesA aw rest
        | _ => PieceC.wrap (sepJoin ((sliceL aw op.i1 op.i2).map String.data)) ::
            piecesA aw rest from rfl, htag] at hpc
      exact ih pc hpc
    | delete =>
      rw [show piecesA aw (op :: rest) = match op.tag with
        | OpTag.equal =>
          (sliceL aw op.i1 op.i2).map (fun t => PieceC.plain t.data) ++ piecesA aw rest
        | OpTag.insert => piecesA aw rest
        | _ => PieceC.wrap (sepJoin ((sliceL aw op.i1 op.i2).map String.data)) ::
            piecesA aw rest from rfl, htag] at hpc
      rcases List.mem_cons.mp hpc with rfl | h2
      · show Clean pat (sepJoin ((sliceL aw op.i1 op.i2).map String.data))
        refine (clean_sepJoin hne hsp _ ?_).1
        intro p hp
        obtain ⟨t, htm, rfl⟩ := List.mem_map.mp hp
        exact htok t (slice_mem htm)
      · exact ih pc h2
    | replace =>
      rw [show piecesA aw (op :: rest) = match op.tag with
        | OpTag.equal =>
          (sliceL aw op.i1 op.i2).map (fun t => PieceC.plain t.data) ++ piecesA aw rest
        | OpTag.insert => piecesA aw rest
        | _ => PieceC.wrap (sepJoin ((sliceL aw op.i1 op.i2).map String.data)) ::
            piecesA aw rest from rfl, htag] at hpc
      rcases List.mem_cons.mp hpc with rfl | h2
      · show Clean pat (sepJoin ((sliceL aw op.i1 op.i2).map String.data))
        refine (clean_sepJoin hne hsp _ ?_).1
        intro p hp
        obtain ⟨t, htm, rfl⟩ := List.mem_map.mp hp
        exact htok t (slice_mem htm)
      · exact ih pc h2

theorem piecesB_clean {pat : List Char} (hne : pat ≠ []) (hsp : ' ' ∉ pat)
    {bw : List String} (htok : ∀ t ∈ bw, Clean pat t.data) :
    ∀ ops : List Op, ∀ pc ∈ piecesB bw ops, PcClean pat pc := by
  intro ops
  induction ops with
  | nil =>
    intro pc hpc
    cases hpc
  | cons op rest ih =>
    intro pc hpc
    cases htag : op.tag with
    | equal =>
      rw [show piecesB bw (op :: rest) = match op.tag with
        | OpTag.equal =>
          (sliceL bw op.j1 op.j2).map (fun t => PieceC.plain t.data) ++ piecesB bw rest
        | OpTag.delete => piecesB bw rest
        | _ => PieceC.wrap (sepJoin ((sliceL bw op.j1 op.j2).map String.data)) ::
            piecesB bw rest from rfl, htag] at hpc
      rcases List.mem_append.mp hpc with h1 | h2
      · obtain ⟨t, htm, rfl⟩ := List.mem_map.mp h1
        exact htok t (slice_mem htm)
      · exact ih pc h2
    | delete =>
      rw [show piecesB bw (op :: rest) = match op.tag with
        | OpTag.equal =>
          (sliceL bw op.j1 op.j2).map (fun t => PieceC.plain t.data) ++ piecesB bw rest
        | OpTag.delete => piecesB bw rest
        | _ => PieceC.wrap (sepJoin ((sliceL bw op.j1 op.j2).map String.data)) ::
            piecesB bw rest from rfl, htag] at hpc
      exact ih pc hpc
    | insert =>
      rw [show piecesB bw (op :: rest) = match op.tag with
        | OpTag.equal =>
          (sliceL bw op.j1 op.j2).map (fun t => PieceC.plain t.data) ++ piecesB bw rest
        | OpTag.delete => piecesB bw rest
        | _ => PieceC.wrap (sepJoin ((sliceL bw op.j1 op.j2).map String.data)) ::
            piecesB bw rest from rfl, htag] at hpc
      rcases List.mem_cons.mp hpc with rfl | h2
      · show Clean pat (sepJoin ((sliceL bw op.j1 op.j2).map String.data))
        refine (clean_sepJoin hne hsp _ ?_).1
        intro p hp
        obtain ⟨t, htm, rfl⟩ := List.mem_map.mp hp
        exact htok t (slice_mem htm)
      · exact ih pc h2
    | replace =>
      rw [show piecesB bw (op :: rest) = match op.tag with
        | OpTag.equal =>
          (sliceL bw op.j1 op.j2).map (fun t => PieceC.plain t.data) ++ piecesB bw rest
        | OpTag.delete => piecesB bw rest
        | _ => PieceC.wrap (sepJoin ((sliceL bw op.j1 op.j2).map String.data)) ::
            piecesB bw rest from rfl, htag] at hpc
      rcases List.mem_cons.mp hpc with rfl | h2
      · show Clean pat (sepJoin ((sliceL bw op.j1 op.j2).map String.data))
        refine (clean_sepJoin hne hsp _ ?_).1
        intro p hp
        obtain ⟨t, htm, rfl⟩ := List.mem_map.mp hp
        exact htok t (slice_mem htm)
      · exact ih pc h2

/-! ## Content preservation of each highlighted side -/

theorem stripDel_side (a b : String)
    (h1 : hasSubL a.data delOpenTag = false) (h2 : hasSubL a.data delCloseTag = false) :
    stripDel (get_text_diff_v2_highlight a b).1 = joinSp (pySplit a) := by
  have hD1ne : delOpenTag ≠ [] := by decide
  have hD1sp : ' ' ∉ delOpenTag := by decide
  have hD1lt : '<' ∉ delOpenTag.drop 1 := by decide
  have hD2ne : delCloseTag ≠ [] := by decide
  have hD2sp : ' ' ∉ delCloseTag := by decide
  have hD2lt : '<' ∉ delCloseTag.drop 1 := by decide
  have hD2hd : delCloseTag.head? = some '<' := by decide
  have hce : Clean delOpenTag delCloseTag := clean_of_hasSubL hD1ne (by decide)
  have htok1 : ∀ t ∈ pySplit a, Clean delOpenTag t.data :=
    pySplit_clean (clean_of_hasSubL hD1ne h1)
  have htok2 : ∀ t ∈ pySplit a, Clean delCloseTag t.data :=
    pySplit_clean (clean_of_hasSubL hD2ne h2)
  have hcl1 : ∀ pc ∈ piecesA (pySplit a) (get_opcodes (pySplit a) (pySplit b)),
      PcClean delOpenTag pc :=
    piecesA_clean hD1ne hD1sp htok1 _
  have hcl2 : ∀ pc ∈ piecesA (pySplit a) (get_opcodes (pySplit a) (pySplit b)),
      PcClean delCloseTag pc :=
    piecesA_clean hD2ne hD2sp htok2 _
  have hX : ((get_text_diff_v2_highlight a b).1).data =
      sepJoin ((piecesA (pySplit a) (get_opcodes (pySplit a) (pySplit b))).map
        (pcStr delOpenTag delCloseTag)) := by
    show (joinSp (hl_lists (pySplit a) (pySplit b)
      (get_opcodes (pySplit a) (pySplit b))).1).data = _
    rw [joinSp_data, hl1_pieces]
  have hwf : ∀ op ∈ get_opcodes (pySplit a) (pySplit b),
      (op.tag = OpTag.delete ∨ op.tag = OpTag.replace) →
      sliceL (pySplit a) op.i1 op.i2 ≠ [] := by
    intro op hop htag
    have hw := opsFromBlocks_wf _ 0 0 (blocksEnd_get_opcodes (pySplit a) (pySplit b)) op hop
    exact slice_ne_nil (hw.2.2.2.2.1 htag) hw.2.1
  have hstep1 : raux delOpenTag ((get_text_diff_v2_highlight a b).1).data 0 =
      sepJoin ((piecesA (pySplit a) (get_opcodes (pySplit a) (pySplit b))).map
        (pcStr1 delCloseTag)) := by
    rw [hX]
    exact pass1 hD1ne hD1sp hD1lt hce hD2hd _ hcl1
  have hstep2 : raux delCloseTag
      (sepJoin ((piecesA (pySplit a) (get_opcodes (pySplit a) (pySplit b))).map
        (pcStr1 delCloseTag))) 0 =
      sepJoin ((piecesA (pySplit a) (get_opcodes (pySplit a) (pySplit b))).map pcStr2) :=
    pass2 hD2ne hD2sp hD2lt hD2hd _ hcl2
  have hflat : sepJoin ((piecesA (pySplit a)
      (get_opcodes (pySplit a) (pySplit b))).map pcStr2) = (joinSp (pySplit a)).data := by
    have hp := preSp_pieces_flatA (pySplit a) _ hwf
    have hsj := sepJoin_eq_of_preSp hp
    rw [hsj, flatA_get_opcodes, joinSp_data]
  have hun : stripDel (get_text_diff_v2_highlight a b).1 =
      ⟨raux delCloseTag
        (raux delOpenTag ((get_text_diff_v2_highlight a b).1).data 0) 0⟩ := rfl
  rw [hun, hstep1, hstep2, hflat]

theorem stripIns_side (a b : String)
    (h1 : hasSubL b.data insOpenTag = false) (h2 : hasSubL b.data insCloseTag = false) :
    stripIns (get_text_diff_v2_highlight a b).2 = joinSp (pySplit b) := by
  have hD1ne : insOpenTag ≠ [] := by decide
  have hD1sp : ' ' ∉ insOpenTag := by decide
  have hD1lt : '<' ∉ insOpenTag.drop 1 := by decide
  have hD2ne : insCloseTag ≠ [] := by decide
  have hD2sp : ' ' ∉ insCloseTag := by decide
  have hD2lt : '<' ∉ insCloseTag.drop 1 := by decide
  have hD2hd : insCloseTag.head? = some '<' := by decide
  have hce : Clean insOpenTag insCloseTag := clean_of_hasSubL hD1ne (by decide)
  have htok1 : ∀ t ∈ pySplit b, Clean insOpenTag t.data :=
    pySplit_clean (clean_of_hasSubL hD1ne h1)
  have htok2 : ∀ t ∈ pySplit b, Clean insCloseTag t.data :=
    pySplit_clean (clean_of_hasSubL hD2ne h2)
  have hcl1 : ∀ pc ∈ piecesB (pySplit b) (get_opcodes (pySplit a) (pySplit b)),
      PcClean insOpenTag pc :=
    piecesB_clean hD1ne hD1sp htok1 _
  have hcl2 : ∀ pc ∈ piecesB (pySplit b) (get_opcodes (pySplit a) (pySplit b)),
      PcClean insCloseTag pc :=
    piecesB_clean hD2ne hD2sp htok2 _
  have hX : ((get_text_diff_v2_highlight a b).2).data =
      sepJoin ((piecesB (pySplit b) (get_opcodes (pySplit a) (pySplit b))).map
        (pcStr insOpenTag insCloseTag)) := by
    show (joinSp (hl_lists (pySplit a) (pySplit b)
      (get_opcodes (pySplit a) (pySplit b))).2).data = _
    rw [joinSp_data, hl2_pieces]
  have hwf : ∀ op ∈ get_opcodes (pySplit a) (pySplit b),
      (op.tag = OpTag.insert ∨ op.tag = OpTag.replace) →
      sliceL (pySplit b) op.j1 op.j2 ≠ [] := by
    intro op hop htag
    have hw := opsFromBlocks_wf _ 0 0 (blocksEnd_get_opcodes (pySplit a) (pySplit b)) op hop
    exact slice_ne_nil (hw.2.2.2.2.2 htag) hw.2.2.2.1
  have hstep1 : raux insOpenTag ((get_text_diff_v2_highlight a b).2).data 0 =
      sepJoin ((piecesB (pySplit b) (get_opcodes (pySplit a) (pySplit b))).map
        (pcStr1 insCloseTag)) := by
    rw [hX]
    exact pass1 hD1ne hD1sp hD1lt hce hD2hd _ hcl1
  have hstep2 : raux insCloseTag
      (sepJoin ((piecesB (pySplit b) (get_opcodes (pySplit a) (pySplit b))).map
        (pcStr1 insCloseTag))) 0 =
      sepJoin ((piecesB (pySplit b) (get_opcodes (pySplit a) (pySplit b))).map pcStr2) :=
    pass2 hD2ne hD2sp hD2lt hD2hd _ hcl2
  have hflat : sepJoin ((piecesB (pySplit b)
      (get_opcodes (pySplit a) (pySplit b))).map pcStr2) = (joinSp (pySplit b)).data := by
    have hp := preSp_pieces_flatB (pySplit b) _ hwf
    have hsj := sepJoin_eq_of_preSp hp
    rw [hsj, flatB_get_opcodes, joinSp_data]
  have hun : stripIns (get_text_diff_v2_highlight a b).2 =
      ⟨raux insCloseTag
        (raux insOpenTag ((get_text_diff_v2_highlight a b).2).data 0) 0⟩ := rfl
  rw [hun, hstep1, hstep2, hflat]

/-! ## Diffing a string against itself -/

theorem get_opcodes_self {a : List String} (h : a ≠ []) :
    get_opcodes a a = [⟨OpTag.equal, 0, a.length, 0, a.length⟩] := by
  have hn : a.length ≠ 0 := fun h0 => h (List.length_eq_zero.mp h0)
  unfold get_opcodes
  rw [mblocks_self h]
  rw [show mergeAdj [(0, 0, a.length)] = [(0, 0, a.length)] from rfl]
  rw [show [(0, 0, a.length)] ++ [(a.length, a.length, 0)] =
    [(0, 0, a.length), (a.length, a.length, 0)] from rfl]
  rw [show opsFromBlocks 0 0 [(0, 0, a.length), (a.length, a.length, 0)] =
    (if 0 < 0 ∧ 0 < 0 then [⟨OpTag.replace, 0, 0, 0, 0⟩]
     else if 0 < 0 then [⟨OpTag.delete, 0, 0, 0, 0⟩]
     else if 0 < 0 then [⟨OpTag.insert, 0, 0, 0, 0⟩]
     else []) ++
      (if a.length ≠ 0 then [⟨OpTag.equal, 0, 0 + a.length, 0, 0 + a.length⟩] else []) ++
      opsFromBlocks (0 + a.length) (0 + a.length) [(a.length, a.length, 0)] from rfl]
  rw [if_neg (by omega), if_neg (by omega), if_neg (by omega), if_pos hn]
  rw [show opsFromBlocks (0 + a.length) (0 + a.length) [(a.length, a.length, 0)] =
    opsFromBlocks a.length a.length [(a.length, a.length, 0)] from by rw [Nat.zero_add]]
  rw [show opsFromBlocks a.length a.length [(a.length, a.length, 0)] =
    (if a.length < a.length ∧ a.length < a.length then
      [⟨OpTag.replace, a.length, a.length, a.length, a.length⟩]
     else if a.length < a.length then
      [⟨OpTag.delete, a.length, a.length, a.length, a.length⟩]
     else if a.length < a.length then
      [⟨OpTag.insert, a.length, a.length, a.length, a.length⟩]
     else []) ++
      (if (0 : Nat) ≠ 0 then
        [⟨OpTag.equal, a.length, a.length + 0, a.length, a.length + 0⟩]
       else []) ++
      opsFromBlocks (a.length + 0) (a.length + 0) [] from rfl]
  rw [if_neg (by omega), if_neg (by omega), if_neg (by omega), if_neg (by omega)]
  rw [show opsFromBlocks (a.length + 0) (a.length + 0) [] = [] from rfl]
  simp

/-- C6 amended: diffing a string against itself returns the
single-space join of its whitespace tokens on both sides (so the
output equals the input exactly when the input is already
whitespace-normalised), and no markers are introduced. -/
theorem C6_diff_self_normalises (a : String) :
    get_text_diff_v2_highlight a a = (joinSp (pySplit a), joinSp (pySplit a)) := by
  by_cases h : pySplit a = []
  · show (joinSp (hl_lists (pySplit a) (pySplit a)
        (get_opcodes (pySplit a) (pySplit a))).1,
      joinSp (hl_lists (pySplit a) (pySplit a)
        (get_opcodes (pySplit a) (pySplit a))).2) = _
    rw [h]
    rfl
  · show (joinSp (hl_lists (pySplit a) (pySplit a)
        (get_opcodes (pySplit a) (pySplit a))).1,
      joinSp (hl_lists (pySplit a) (pySplit a)
        (get_opcodes (pySplit a) (pySplit a))).2) = _
    rw [get_opcodes_self h]
    rw [show hl_lists (pySplit a) (pySplit a)
        [⟨OpTag.equal, 0, (pySplit a).length, 0, (pySplit a).length⟩] =
      (sliceL (pySplit a) 0 (pySplit a).length ++
          (hl_lists (pySplit a) (pySplit a) []).1,
        sliceL (pySplit a) 0 (pySplit a).length ++
          (hl_lists (pySplit a) (pySplit a) []).2) from rfl]
    rw [show (hl_lists (pySplit a) (pySplit a) []) = ([], []) from rfl]
    rw [show sliceL (pySplit a) 0 (pySplit a).length =
      ((pySplit a).drop 0).take ((pySplit a).length - 0) from rfl]
    rw [List.drop_zero, Nat.sub_zero, List.take_length]
    simp

/-! ## Navigation helper lemmas -/

theorem pyIndex_get : ∀ (l : List String) (k : Nat) (hk : k < l.length), l.Nodup →
    pyIndex l (l.get ⟨k, hk⟩) = k := by
  intro l
  induction l with
  | nil =>
    intro k hk
    simp at hk
  | cons y ys ih =>
    intro k hk hnd
    cases k with
    | zero => simp [pyIndex]
    | succ k =>
      have hk' : k < ys.length := by
        simp at hk
        omega
      have hmem : ys.get ⟨k, hk'⟩ ∈ ys := List.get_mem _ _ hk'
      have hy : ¬ y = ys.get ⟨k, hk'⟩ := by
        intro he
        exact (List.nodup_cons.mp hnd).1 (he ▸ hmem)
      have hih := ih k hk' (List.nodup_cons.mp hnd).2
      show pyIndex (y :: ys) (ys.get ⟨k, hk'⟩) = k + 1
      rw [show pyIndex (y :: ys) (ys.get ⟨k, hk'⟩) =
        if y = ys.get ⟨k, hk'⟩ then 0 else pyIndex ys (ys.get ⟨k, hk'⟩) + 1 from rfl]
      rw [if_neg hy, hih]

theorem getD_get (l : List String) (n : Nat) (h : n < l.length) :
    l.getD n "" = l.get ⟨n, h⟩ := by
  induction l generalizing n with
  | nil => simp at h
  | cons y ys ih =>
    cases n with
    | zero => rfl
    | succ n =>
      have h' : n < ys.length := by
        simp at h
        omega
      show ys.getD n "" = ys.get ⟨n, h'⟩
      exact ih n h'

/-! ## Claim theorems -/

/-- C1 counterexample: on original "The dog is loyal" and update
"The dog is very loyal and friendly", the highlighter does not return
the outputs the claim states ("The dog is <del>loyal</del>" /
"The dog is <ins>very loyal and friendly</ins>"): the matcher also
matches the word "loyal" inside the update, so no replace opcode is
produced. -/
theorem C1_counterexample :
    get_text_diff_v2_highlight "The dog is loyal" "The dog is very loyal and friendly" ≠
      ("The dog is <del>loyal</del>", "The dog is <ins>very loyal and friendly</ins>") := by
  decide

/-- C1 amended: on that input pair the opcodes are equal "The dog is",
insert "very", equal "loyal", insert "and friendly", so the first
output is "The dog is loyal" (no markers) and the second is
"The dog is <ins>very</ins> loyal <ins>and friendly</ins>". -/
theorem C1_highlight_dog :
    get_text_diff_v2_highlight "The dog is loyal" "The dog is very loyal and friendly" =
      ("The dog is loyal", "The dog is <ins>very</ins> loyal <ins>and friendly</ins>") := by
  decide

/-- C2 counterexample: with only the "other" checkbox checked and the
free text empty, the selected-issues list is `["Other:"]` (not empty)
and the Q2 question is rendered. -/
theorem C2_counterexample :
    q2_rendered (fun k => k == "other") "" = true ∧
      selected_q1_options (fun k => k == "other") "" ≠ [] := by
  decide

/-- C2 amended: if the only Q1 checkbox checked is "other" and its
free-text field is empty after trimming, the selected-issues list is
exactly `["Other:"]` (the bare label counts as a selection), q1 is
set, and the Q2 decision question IS rendered; the free text only adds
an extra entry when non-empty after trimming. -/
theorem C2_other_alone_selects (checked : String → Bool) (other_text : String)
    (hother : checked "other" = true)
    (honly : ∀ k : String, k ≠ "other" → checked k = false)
    (hempty : pyStrip other_text = "") :
    selected_q1_options checked other_text = ["Other:"] ∧
      q2_rendered checked other_text = true := by
  have h1 : checked "style" = false := honly _ (by decide)
  have h2 : checked "minor_fix" = false := honly _ (by decide)
  have h3 : checked "formatting" = false := honly _ (by decide)
  have h4 : checked "citation" = false := honly _ (by decide)
  have h5 : checked "subjective" = false := honly _ (by decide)
  have h6 : checked "duplicate" = false := honly _ (by decide)
  have h7 : checked "insignificant" = false := honly _ (by decide)
  have h8 : checked "irrelevant" = false := honly _ (by decide)
  have h9 : checked "policy" = false := honly _ (by decide)
  have hsel : selected_q1_options checked other_text = ["Other:"] := by
    unfold selected_q1_options
    rw [show q1_options.filter (fun p => checked p.1) =
      List.filter (fun p => checked p.1)
        [("style", "Stylistic/clarity: Phrasing redundant or tone is too informal"),
         ("minor_fix", "Minor factual fix: Small date/number correction needed"),
         ("formatting", "Wikipedia Formatting: Text in the human edit is not formatted properly"),
         ("citation", "Missing citation(s): One or more facts in the edit lack a reference"),
         ("subjective", "Subjective: Opinion or superlative without attribution (“most unexpected”)"),
         ("duplicate", "Duplicate: Overlaps substantially with another accepted fact."),
         ("insignificant", "Insignificant: Majority of the edit is not worthy of being included in Wikipedia"),
         ("irrelevant", "Irrelevant: The facts presented in the edit are not relevant for the entity"),
         ("policy", "Policy violation: Conflict with WP:OR, WP:NPOV, etc."),
         ("other", "Other:")] from rfl]
    simp only [List.filter, h1, h2, h3, h4, h5, h6, h7, h8, h9, hother]
    rw [if_neg]
    · simp
    · intro hcon
      exact hcon.2 hempty
  refine ⟨hsel, ?_⟩
  unfold q2_rendered q1_state
  rw [hsel]
  simp

/-- C2 witness at a concrete input: checkbox state checking exactly
"other", free text a single space. -/
theorem C2_witness :
    selected_q1_options (fun k => k == "other") " " = ["Other:"] ∧
      q2_rendered (fun k => k == "other") " " = true :=
  C2_other_alone_selects _ _ (by decide)
    (fun k hk => by simpa using hk) (by decide)

/-- C3 counterexample: choosing the second Q3 option stores the
literal label "If No, which section:", which is neither "Yes" nor
"No". -/
theorem C3_counterexample :
    (submit_assemble ["Other:"] "Accept" (some 1) "History").q3 ≠ "Yes" ∧
      (submit_assemble ["Other:"] "Accept" (some 1) "History").q3 ≠ "No" := by
  decide

/-- C3 amended: every review record assembled at submission has q3
equal to one of the two radio labels "Yes" / "If No, which section:",
and carries a q3_section value exactly when the second label is
selected. -/
theorem C3_record_invariant (q1v : List String) (q2v : String) (uc : Option (Fin 2))
    (sec : String) :
    ((submit_assemble q1v q2v uc sec).q3 = "Yes" ∨
      (submit_assemble q1v q2v uc sec).q3 = "If No, which section:") ∧
      ((submit_assemble q1v q2v uc sec).q3_section.isSome ↔
        (submit_assemble q1v q2v uc sec).q3 = "If No, which section:") := by
  rcases uc with - | c
  · refine ⟨Or.inl rfl, ?_⟩
    simp [submit_assemble, q3_value, st_radio, q3_options]
  · fin_cases c
    · refine ⟨Or.inl rfl, ?_⟩
      simp [submit_assemble, q3_value, st_radio, q3_options]
    · refine ⟨Or.inr rfl, ?_⟩
      simp [submit_assemble, q3_value, st_radio, q3_options]

/-- C4 (code bug evidence): the Go-to-Next-Entry clearing loop deletes
keys matching `q2_`, `q3`, `review_submitted` prefixes or equal to
`q1` — the Q2 radio's actual key `q2` matches none of these, so the
previous entry's Q2 answer survives navigation, while the
selection-change path would have cleared it. -/
theorem C4_go_next_keeps_q2 :
    go_next_remaining ["q1", "q2", "q3", "q3_section", "review_submitted"] = ["q2"] ∧
      go_next_clears "q2" = false ∧ select_entry_clears "q2" = true := by
  decide

/-- C5 counterexample: loading the same raw entry list with two
different uuid sources yields different entry collections (the entry
lacks a `uid` field, so it receives the freshly drawn random uuid). -/
theorem C5_counterexample :
    load_entries_from_file [[("entity_id", "Dog")]] (fun _ => "uuid-1") ≠
      load_entries_from_file [[("entity_id", "Dog")]] (fun _ => "uuid-2") := by
  decide

/-- C5 amended: the uploaded-file loader is deterministic in the
parsed bytes only when every entry already carries a `uid` field;
otherwise the output depends on the random uuid draws. -/
theorem C5_deterministic_when_uids_present (raw : List Entry) (g1 g2 : Nat → String)
    (h : ∀ e ∈ raw, hasKey e "uid" = true) :
    load_entries_from_file raw g1 = load_entries_from_file raw g2 := by
  have haux : ∀ (raw' : List Entry) (i : Nat), (∀ e ∈ raw', hasKey e "uid" = true) →
      loadAux g1 i raw' = loadAux g2 i raw' := by
    intro raw'
    induction raw' with
    | nil =>
      intro i _
      rfl
    | cons e es ih =>
      intro i h'
      have he := h' e (List.mem_cons_self _ _)
      show setdefault e "uid" (g1 i) :: loadAux g1 (i + 1) es =
        setdefault e "uid" (g2 i) :: loadAux g2 (i + 1) es
      rw [show setdefault e "uid" (g1 i) = if hasKey e "uid" then e else e ++ [("uid", g1 i)]
          from rfl,
        show setdefault e "uid" (g2 i) = if hasKey e "uid" then e else e ++ [("uid", g2 i)]
          from rfl,
        if_pos he, if_pos he, ih (i + 1) (fun q hq => h' q (List.mem_cons_of_mem _ hq))]
  exact haux raw 0 h

/-- C5 witness: a single entry that already has a uid loads
identically under two different uuid sources. -/
theorem C5_witness :
    load_entries_from_file [[("uid", "u0")]] (fun _ => "uuid-1") =
      load_entries_from_file [[("uid", "u0")]] (fun _ => "uuid-2") :=
  C5_deterministic_when_uids_present _ _ _ (by decide)

/-- C6 counterexample: highlight applied to the identical strings
"x  y" (double space) collapses the whitespace, so the first output is
"x y", not the input itself. -/
theorem C6_counterexample :
    (get_text_diff_v2_highlight "x  y" "x  y").1 ≠ "x  y" := by
  decide

/-- C7: when the persistence sink raises during submission, the
review_submitted flag keeps its (unset) value, the in-progress Q1-Q3
answers and section text are untouched, the failure is surfaced, no
upload happened, and re-clicking submit (a second call with a working
sink) completes the submission. -/
theorem C7_sink_failure (s : SessionForm) (h : s.review_submitted = false) :
    (submit_review s false).state.review_submitted = false ∧
      (submit_review s false).state.q1 = s.q1 ∧
      (submit_review s false).state.q2 = s.q2 ∧
      (submit_review s false).state.q3 = s.q3 ∧
      (submit_review s false).state.q3_section = s.q3_section ∧
      (submit_review s false).uploaded = false ∧
      (submit_review s false).errorSurfaced = true ∧
      (submit_review (submit_review s false).state true).state.review_submitted = true := by
  simp [submit_review, h]

/-- C7 witness at a concrete form state. -/
theorem C7_witness :
    (submit_review ⟨some ["Other:"], some "Accept", some "Yes", none, false⟩
        false).state.review_submitted = false ∧
      (submit_review ⟨some ["Other:"], some "Accept", some "Yes", none, false⟩
        false).state.q1 = some ["Other:"] ∧
      (submit_review (submit_review ⟨some ["Other:"], some "Accept", some "Yes", none, false⟩
        false).state true).state.review_submitted = true := by
  have h := C7_sink_failure ⟨some ["Other:"], some "Accept", some "Yes", none, false⟩ rfl
  exact ⟨h.1, h.2.1, h.2.2.2.2.2.2.2⟩

/-- C8: "Go to Next Entry" from the entry at index k moves to index
(k + 1) mod N: from k < N - 1 to k + 1, wrapping from the last entry
back to the first. -/
theorem C8_advance (uids : List String) (k : Nat) (hnd : uids.Nodup)
    (hk : k < uids.length) :
    next_idx uids (uids.get ⟨k, hk⟩) = (k + 1) % uids.length ∧
      advanceToNext uids (uids.get ⟨k, hk⟩) =
        uids.get ⟨(k + 1) % uids.length, Nat.mod_lt _ (by omega)⟩ := by
  have hidx : next_idx uids (uids.get ⟨k, hk⟩) = (k + 1) % uids.length := by
    unfold next_idx
    rw [pyIndex_get uids k hk hnd]
  refine ⟨hidx, ?_⟩
  unfold advanceToNext
  rw [hidx, getD_get uids _ (Nat.mod_lt _ (by omega))]

/-- C8 witness: in a three-entry collection, advancing from the last
uid wraps to the first. -/
theorem C8_witness :
    next_idx ["a", "b", "c"] "c" = 0 ∧ advanceToNext ["a", "b", "c"] "c" = "a" := by
  have h := C8_advance ["a", "b", "c"] 2 (by decide) (by decide)
  exact ⟨h.1, h.2⟩

/-- C9: whenever Q1 and Q2 are answered, the Q3 block (with the submit
button) is rendered, the Q3 radio defaults to "Yes" (never an empty
selection), and a review submitted without touching Q3 stores
q3 = "Yes" — the q3 value is never absent at submission. -/
theorem C9_q3_default (q1v : List String) (q2v : String) (uc : Option (Fin 2))
    (sec : String) (h1 : q1v ≠ []) (h2 : q2v ∈ q2_options) :
    q3_block_rendered (some q1v) (some q2v) = true ∧
      st_radio q3_options (some 0) none = some "Yes" ∧
      (∃ v, st_radio q3_options (some 0) (uc.map Fin.val) = some v ∧ v ∈ q3_options) ∧
      (submit_assemble q1v q2v none sec).q3 = "Yes" := by
  refine ⟨?_, rfl, ?_, rfl⟩
  · unfold q3_block_rendered pyTruthyListOpt pyTruthyStrOpt
    have hq1 : (q1v == []) = false := by
      rw [beq_eq_false_iff_ne]
      exact h1
    have hq2 : (q2v == "") = false := by
      rw [beq_eq_false_iff_ne]
      simp [q2_options] at h2
      rcases h2 with rfl | rfl | rfl <;> decide
    simp [hq1, hq2]
  · rcases uc with - | c
    · exact ⟨"Yes", rfl, by decide⟩
    · fin_cases c
      · exact ⟨"Yes", rfl, by decide⟩
      · exact ⟨"If No, which section:", rfl, by decide⟩

/-- C9 witness at a concrete answered form. -/
theorem C9_witness :
    q3_block_rendered (some ["Other:"]) (some "Accept") = true ∧
      st_radio q3_options (some 0) none = some "Yes" ∧
      (∃ v, st_radio q3_options (some 0) ((none : Option (Fin 2)).map Fin.val) = some v ∧
        v ∈ q3_options) ∧
      (submit_assemble ["Other:"] "Accept" none "").q3 = "Yes" :=
  C9_q3_default ["Other:"] "Accept" none "" (by decide) (by decide)

/-- C10: highlight preserves content — for marker-free inputs,
deleting all occurrences of the del (ins) tags from the first (second)
output recovers the single-space join of the original (updated)
string's whitespace tokens. -/
theorem C10_content_preserved (a b : String) (ha : MarkerClean a) (hb : MarkerClean b) :
    stripDel (get_text_diff_v2_highlight a b).1 = joinSp (pySplit a) ∧
      stripIns (get_text_diff_v2_highlight a b).2 = joinSp (pySplit b) :=
  ⟨stripDel_side a b ha.1 ha.2.1, stripIns_side a b hb.2.2.1 hb.2.2.2⟩

/-- C10 witness at a concrete marker-free input pair. -/
theorem C10_witness :
    MarkerClean "p q" ∧ MarkerClean "p r" ∧
      stripDel (get_text_diff_v2_highlight "p q" "p r").1 = joinSp (pySplit "p q") ∧
      stripIns (get_text_diff_v2_highlight "p q" "p r").2 = joinSp (pySplit "p r") :=
  ⟨by decide, by decide,
    (C10_content_preserved "p q" "p r" (by decide) (by decide)).1,
    (C10_content_preserved "p q" "p r" (by decide) (by decide)).2⟩
